import Mathlib

/-!
Verification of the Bolt-Agentic plan-execution engine.

This file gives a shallow embedding, in Lean 4, of the plan runner implemented
in `packages/core/src/planner.ts` (the `runPlan` engine together with its
utilities `stableStringify`, `readPath`, `autoCacheKey`, `deepResolve`,
`execWithRetry`, and the per-kind step dispatch), plus a second embedding of
the variant runner (the revision of `planner.ts` that adds a wall-clock budget:
`checkBudget`, `deriveCacheKey` and its `execWithRetry`).

JavaScript values flowing through the engine are modelled by the inductive
type `JVal` (with `undef` standing for JS `undefined`).  Thrown errors are
modelled by `JErr`.  Asynchronous execution is modelled deterministically:
composite steps (`parallel`, `map`) process their children sequentially in
declared/index order, which is one admissible schedule of the JS event loop;
collaborator calls are pure oracles supplied by an `Env`.  The engine state
threads the outputs map, the emitted event trace and a log of external calls.
-/

namespace Bolt

/-- JavaScript runtime values, as relevant to the engine.  Objects are
association lists in insertion order (JS object keys are unique; that
invariant appears as a hypothesis where needed).  Numbers are modelled as
integers. -/
inductive JVal where
  | undef
  | null
  | bool (b : Bool)
  | num (n : Int)
  | str (s : String)
  | arr (xs : List JVal)
  | obj (fields : List (String × JVal))

mutual

/-- Boolean structural equality on `JVal` (hand-written because `deriving`
does not handle the nested inductive). -/
def JVal.beq : JVal → JVal → Bool
  | .undef, .undef => true
  | .null, .null => true
  | .bool a, .bool b => a == b
  | .num a, .num b => a == b
  | .str a, .str b => a == b
  | .arr xs, .arr ys => JVal.beqList xs ys
  | .obj fs, .obj gs => JVal.beqFields fs gs
  | _, _ => false

def JVal.beqList : List JVal → List JVal → Bool
  | [], [] => true
  | x :: xs, y :: ys => JVal.beq x y && JVal.beqList xs ys
  | _, _ => false

def JVal.beqFields : List (String × JVal) → List (String × JVal) → Bool
  | [], [] => true
  | (k, v) :: fs, (l, w) :: gs => k == l && JVal.beq v w && JVal.beqFields fs gs
  | _, _ => false

end

mutual

def JVal.beq_iff : ∀ a b : JVal, JVal.beq a b = true ↔ a = b
  | .undef, b => by cases b <;> simp [JVal.beq]
  | .null, b => by cases b <;> simp [JVal.beq]
  | .bool a, b => by cases b <;> simp [JVal.beq]
  | .num a, b => by cases b <;> simp [JVal.beq]
  | .str a, b => by cases b <;> simp [JVal.beq]
  | .arr xs, b => by
      cases b <;> simp [JVal.beq]
      exact JVal.beqList_iff xs _
  | .obj fs, b => by
      cases b <;> simp [JVal.beq]
      exact JVal.beqFields_iff fs _

def JVal.beqList_iff : ∀ xs ys : List JVal, JVal.beqList xs ys = true ↔ xs = ys
  | [], ys => by cases ys <;> simp [JVal.beqList]
  | x :: xs, ys => by
      cases ys with
      | nil => simp [JVal.beqList]
      | cons y ys =>
        simp only [JVal.beqList, Bool.and_eq_true, List.cons.injEq]
        exact and_congr (JVal.beq_iff x y) (JVal.beqList_iff xs ys)

def JVal.beqFields_iff :
    ∀ fs gs : List (String × JVal), JVal.beqFields fs gs = true ↔ fs = gs
  | [], gs => by cases gs <;> simp [JVal.beqFields]
  | (k, v) :: fs, gs => by
      cases gs with
      | nil => simp [JVal.beqFields]
      | cons g gs =>
        obtain ⟨l, w⟩ := g
        simp only [JVal.beqFields, Bool.and_eq_true, List.cons.injEq, Prod.mk.injEq,
          beq_iff_eq]
        rw [JVal.beq_iff v w, JVal.beqFields_iff fs gs, and_assoc]

end

instance : DecidableEq JVal := fun a b =>
  decidable_of_iff (JVal.beq a b = true) (JVal.beq_iff a b)

/-- `Map.get` on the outputs map: first binding wins (the map is kept
duplicate-free by `mapSet`), a missing key reads as `undefined`. -/
def mapGet (out : List (String × JVal)) (k : String) : JVal :=
  match out with
  | [] => .undef
  | (k', v) :: rest => if k' = k then v else mapGet rest k

/-- `Map.set` on the outputs map: overwrite in place if present, else append
(JS `Map` keeps the original insertion position on overwrite). -/
def mapSet (out : List (String × JVal)) (k : String) (v : JVal) :
    List (String × JVal) :=
  match out with
  | [] => [(k, v)]
  | (k', v') :: rest =>
    if k' = k then (k', v) :: rest else (k', v') :: mapSet rest k v

/-- JS object property assignment (`o[k] = v`): overwrite in place if the key
exists, else append.  Same operational content as `mapSet`; named separately
because the projection loop builds a plain object, not a `Map`. -/
def objAssign (o : List (String × JVal)) (k : String) (v : JVal) :
    List (String × JVal) :=
  mapSet o k v

/- ----------------------------------------------------------------
 * stableStringify  (planner.ts lines 18-27)
 *
 * `JSON.stringify(v, replacer)` where the replacer substitutes every
 * non-array object by a copy whose keys are inserted in sorted order, so the
 * serializer emits each object's fields sorted by key, at every depth.
 * The embedding renders each field's value first (structural recursion),
 * then sorts the rendered (key, text) pairs by key — since the comparator
 * inspects keys only, this commutes with the per-field rendering and yields
 * exactly the JS output.  Fields whose value serializes to nothing
 * (JS `undefined`) are dropped, as `JSON.stringify` does; `undefined` array
 * elements render as `null`.
 * ---------------------------------------------------------------- -/

/-- Left brace character (written via its code point). -/
def lbraceC : Char := Char.ofNat 123

/-- Right brace character (written via its code point). -/
def rbraceC : Char := Char.ofNat 125

/-- Minimal JSON string quoting: backslash and double quote are escaped,
other characters pass through.  (Control-character escaping is irrelevant to
the properties proved here, which only need the serializer to be a function
of the value.) -/
def quoteJson (s : String) : String :=
  "\"" ++ String.mk (s.data.flatMap fun c =>
    if c = '\\' then ['\\', '\\']
    else if c = '"' then ['\\', '"']
    else [c]) ++ "\""

/-- Key order used by `Object.keys(value).sort()`: lexicographic on the key
of a rendered field. -/
def fieldLE (a b : String × Option String) : Prop := a.1 ≤ b.1

instance : DecidableRel fieldLE := fun a b => by
  unfold fieldLE; infer_instance

instance : IsTotal (String × Option String) fieldLE :=
  ⟨fun a b => le_total a.1 b.1⟩

instance : IsTrans (String × Option String) fieldLE :=
  ⟨fun _ _ _ h h' => le_trans h h'⟩

/-- Comma-join a list of rendered fragments. -/
def joinComma : List String → String
  | [] => ""
  | [s] => s
  | s :: rest => s ++ "," ++ joinComma rest

mutual

/-- Serialize a `JVal` as `JSON.stringify` with the key-sorting replacer
does; `none` models the JS result `undefined`. -/
def jstr : JVal → Option String
  | .undef => none
  | .null => some "null"
  | .bool b => some (if b then "true" else "false")
  | .num n => some (toString n)
  | .str s => some (quoteJson s)
  | .arr xs =>
    some ("[" ++ joinComma ((jstrElems xs).map fun o => o.getD "null") ++ "]")
  | .obj fs =>
    some (String.mk [lbraceC] ++
      joinComma (((List.insertionSort fieldLE (jstrFields fs)).filterMap
        fun p => p.2.map fun t => quoteJson p.1 ++ ":" ++ t)) ++
      String.mk [rbraceC])

def jstrElems : List JVal → List (Option String)
  | [] => []
  | v :: rest => jstr v :: jstrElems rest

def jstrFields : List (String × JVal) → List (String × Option String)
  | [] => []
  | (k, v) :: rest => (k, jstr v) :: jstrFields rest

end

/-- `stableStringify` as used in template literals (an object argument always
serializes to a string, so the default is never reached on the engine's
inputs). -/
def stableStringify (v : JVal) : String :=
  (jstr v).getD "undefined"

/- ----------------------------------------------------------------
 * Equality of JS values up to object-key insertion order
 * ---------------------------------------------------------------- -/

mutual

/-- Two values are `KeyEquiv` when they agree except that, at any depth, the
fields of corresponding objects may be listed in different insertion orders.
The `obj` case permutes the fields and then relates them pointwise (equal
keys, equivalent values). -/
inductive KeyEquiv : JVal → JVal → Prop where
  | undef : KeyEquiv .undef .undef
  | null : KeyEquiv .null .null
  | bool (b : Bool) : KeyEquiv (.bool b) (.bool b)
  | num (n : Int) : KeyEquiv (.num n) (.num n)
  | str (s : String) : KeyEquiv (.str s) (.str s)
  | arr {xs ys : List JVal} : KeyEquivList xs ys → KeyEquiv (.arr xs) (.arr ys)
  | obj {fs hs gs : List (String × JVal)} : fs.Perm hs → KeyEquivFields hs gs →
      KeyEquiv (.obj fs) (.obj gs)

inductive KeyEquivList : List JVal → List JVal → Prop where
  | nil : KeyEquivList [] []
  | cons {x y : JVal} {xs ys : List JVal} : KeyEquiv x y → KeyEquivList xs ys →
      KeyEquivList (x :: xs) (y :: ys)

inductive KeyEquivFields : List (String × JVal) → List (String × JVal) → Prop where
  | nil : KeyEquivFields [] []
  | cons {p q : String × JVal} {ps qs : List (String × JVal)} :
      p.1 = q.1 → KeyEquiv p.2 q.2 → KeyEquivFields ps qs →
      KeyEquivFields (p :: ps) (q :: qs)

end


/-- Key distinctness on a key list (Boolean, so witnesses can evaluate it). -/
def distinctKeys : List String → Bool
  | [] => true
  | k :: rest => !(rest.contains k) && distinctKeys rest

mutual

/-- At every depth, each object's keys are pairwise distinct — an invariant
every value read out of a JS runtime satisfies (JS objects cannot carry
duplicate keys), made explicit because Lean association lists can. -/
def nodupKeysB : JVal → Bool
  | .undef => true
  | .null => true
  | .bool _ => true
  | .num _ => true
  | .str _ => true
  | .arr xs => nodupKeysBList xs
  | .obj fs => distinctKeys (fs.map Prod.fst) && nodupKeysBFields fs

def nodupKeysBList : List JVal → Bool
  | [] => true
  | v :: rest => nodupKeysB v && nodupKeysBList rest

def nodupKeysBFields : List (String × JVal) → Bool
  | [] => true
  | (_, v) :: rest => nodupKeysB v && nodupKeysBFields rest

end

/- ----------------------------------------------------------------
 * Data model  (packages/core/src/types.ts)
 * ---------------------------------------------------------------- -/

/-- `retry?: { max: number; backoffMs?: number }`. -/
structure RetrySpec where
  max : Nat
  backoffMs : Option Nat

/-- `Guard`.  The duck-typed `schema` (anything with `safeParse`) is modelled
by its success predicate; a schema object without `safeParse`, which
`validate` accepts unconditionally, is subsumed by `none`.  `scoreCheck` is
never read by the runner and is omitted. -/
structure Guard where
  schema : Option (JVal → Bool)
  retry : Option RetrySpec

/-- `cacheKey?: string | "auto"` — the distinguished string `"auto"` versus
any explicit key. -/
inductive CacheKeySpec where
  | auto
  | explicit (key : String)
  deriving Repr, DecidableEq

/-- Fields shared by every step (`BaseStep`), carried inline by each step
structure below.  `idempotencyKey` is never read by the runner and omitted. -/
structure ModelStep where
  id : String
  agent : String
  inputFrom : Option (List String)
  guard : Option Guard
  cacheKey : Option CacheKeySpec
  timeoutMs : Option Nat

structure ToolStep where
  id : String
  toolId : String
  args : Option JVal
  inputFrom : Option (List String)
  guard : Option Guard
  cacheKey : Option CacheKeySpec
  timeoutMs : Option Nat

/-- The `ModelOrTool` leaf view (`Extract<PlanStep, model | tool>`). -/
inductive MT where
  | model (s : ModelStep)
  | tool (s : ToolStep)

def MT.id : MT → String
  | .model s => s.id
  | .tool s => s.id

def MT.guard : MT → Option Guard
  | .model s => s.guard
  | .tool s => s.guard

def MT.cacheKey : MT → Option CacheKeySpec
  | .model s => s.cacheKey
  | .tool s => s.cacheKey

def MT.inputFrom : MT → Option (List String)
  | .model s => s.inputFrom
  | .tool s => s.inputFrom

/-- `Expr`: `{var: ref}`, `{value: literal}`, or a bare literal.  A bare
literal and `{value: v}` resolve identically in `resolveExpr`, so both are
covered by `value`; an object literal that carries neither key resolves to
itself and is likewise a `value`. -/
inductive Expr where
  | var (ref : String)
  | value (v : JVal)

/-- `Condition`: bare step-id string, `{truthy}`, `{eq|gt|lt}`. -/
inductive Condition where
  | bare (ref : String)
  | truthy (ref : String)
  | eq (left right : Expr)
  | gt (left right : Expr)
  | lt (left right : Expr)

structure BranchArm where
  when : Condition
  then_ : List String

/-- `MapChild`: a model/tool template without its own id. -/
inductive MapChild where
  | model (agent : String) (inputFrom : Option (List String)) (guard : Option Guard)
      (cacheKey : Option CacheKeySpec) (timeoutMs : Option Nat)
  | tool (toolId : String) (args : Option JVal) (inputFrom : Option (List String))
      (guard : Option Guard) (cacheKey : Option CacheKeySpec) (timeoutMs : Option Nat)

def MapChild.inputFrom : MapChild → Option (List String)
  | .model _ i _ _ _ => i
  | .tool _ _ i _ _ _ => i

structure MapStep where
  id : String
  itemsFrom : String
  child : MapChild
  maxConcurrency : Option Nat
  fromItemAsInput : Option Bool

inductive PlanStep where
  | model (s : ModelStep)
  | tool (s : ToolStep)
  | parallel (id : String) (children : List String) (maxConcurrency : Option Nat)
  | branch (id : String) (branches : List BranchArm) (elseSeq : Option (List String))
  | mapStep (s : MapStep)

def PlanStep.id : PlanStep → String
  | .model s => s.id
  | .tool s => s.id
  | .parallel i _ _ => i
  | .branch i _ _ => i
  | .mapStep s => s.id

structure Plan where
  id : String
  steps : List PlanStep
  outputs : List String

/- ----------------------------------------------------------------
 * autoCacheKey  (planner.ts lines 45-51)
 * ---------------------------------------------------------------- -/

/-- The signature object built by `autoCacheKey`, in source insertion order
(the serializer sorts keys, so the recorded order is immaterial — which is
the point of claim C5). -/
def autoSig : MT → JVal → JVal
  | .model s, input =>
    .obj [("k", .str "model"), ("id", .str s.id), ("agent", .str s.agent),
      ("input", input)]
  | .tool s, input =>
    .obj [("k", .str "tool"), ("id", .str s.id), ("toolId", .str s.toolId),
      ("args", s.args.getD input)]

/-- `step:${s.id}:${stableStringify(sig)}`. -/
def autoCacheKey (s : MT) (input : JVal) : String :=
  "step:" ++ s.id ++ ":" ++ stableStringify (autoSig s input)

/- ----------------------------------------------------------------
 * Reference resolver  (planner.ts lines 29-42 and 119-160)
 * ---------------------------------------------------------------- -/

/-- JS `\w`: ASCII letters, digits, underscore. -/
def isWordChar (c : Char) : Bool := c.isAlphanum || c = '_'

/-- Split a character list into maximal runs of characters of equal
word-ness.  Runs are nonempty and adjacent runs alternate between word and
non-word characters. -/
def runsplit : List Char → List (List Char)
  | [] => []
  | c :: rest =>
    match runsplit rest with
    | [] => [[c]]
    | [] :: rs => [c] :: rs
    | (d :: r) :: rs =>
      if isWordChar c = isWordChar d then (c :: d :: r) :: rs
      else [c] :: (d :: r) :: rs

/-- Global regex replacement of `\bw\b` by `rep`, for a pattern `w` made of
word characters: a match of such a pattern must be flanked by word
boundaries, hence is exactly a maximal word run equal to `w`.  (A non-word
run can never equal a word-character pattern, so comparing every run is
sound.) -/
def replaceWordRuns (w rep cs : List Char) : List Char :=
  ((runsplit cs).map fun r => if r = w then rep else r).flatten

/-- Whitespace recognised by the model of `String.prototype.trim` (the
engine only ever trims identifier-like references, so the exact whitespace
class is immaterial). -/
def isWs (c : Char) : Bool := c = ' ' || c = '\t' || c = '\n' || c = '\r'

def trimChars (cs : List Char) : List Char :=
  ((cs.dropWhile isWs).reverse.dropWhile isWs).reverse

/-- Dollar character. -/
def dollarC : Char := '$'

/-- Reads the body of `^\$\{([^}]+)\}$` after the opening two characters:
everything up to a final right brace, failing if a right brace occurs
earlier or the input is not brace-terminated. -/
def phExtract : List Char → Option (List Char)
  | [] => none
  | c :: rest =>
    if c = rbraceC then (if rest = [] then some [] else none)
    else (phExtract rest).map (c :: ·)

/-- Match `^\$\{([^}]+)\}$`, returning the (nonempty) placeholder body. -/
def parsePH (cs : List Char) : Option (List Char) :=
  match cs with
  | c₁ :: c₂ :: rest =>
    if c₁ = dollarC ∧ c₂ = lbraceC then
      match phExtract rest with
      | some mid => if mid = [] then none else some mid
      | none => none
    else none
  | _ => none

/-- `String.prototype.split(".")`: split at every dot, keeping empty
segments. -/
def splitDot : List Char → List (List Char)
  | [] => [[]]
  | c :: rest =>
    if c = '.' then [] :: splitDot rest
    else
      match splitDot rest with
      | [] => [[c]]
      | seg :: segs => (c :: seg) :: segs

/-- Join segments with dots (the inverse used for `rest.join(".")` and in
statements about dotted references). -/
def joinDots : List (List Char) → List Char
  | [] => []
  | [s] => s
  | s :: rest => s ++ '.' :: joinDots rest

/-- `path.replace(/\[(\d+)\]/g, ".$1")`: rewrite `[123]` to `.123`.  The
second argument accumulates (reversed) digits seen since an unmatched
opening bracket. -/
def bracketToDotGo : List Char → Option (List Char) → List Char
  | [], none => []
  | [], some ds => '[' :: ds.reverse
  | c :: rest, none =>
    if c = '[' then bracketToDotGo rest (some [])
    else c :: bracketToDotGo rest none
  | c :: rest, some ds =>
    if c.isDigit then bracketToDotGo rest (some (c :: ds))
    else if c = ']' then
      if ds.isEmpty then '[' :: ']' :: bracketToDotGo rest none
      else '.' :: ds.reverse ++ bracketToDotGo rest none
    else if c = '[' then '[' :: ds.reverse ++ bracketToDotGo rest (some [])
    else '[' :: ds.reverse ++ c :: bracketToDotGo rest none

def bracketToDot (cs : List Char) : List Char := bracketToDotGo cs none

/-- A canonical array index: digits with no superfluous leading zero (JS
arrays expose elements only under canonical numeric property names). -/
def natOfIndex (cs : List Char) : Option Nat :=
  match cs with
  | [] => none
  | ['0'] => some 0
  | c :: _ =>
    if c = '0' then none
    else if cs.all Char.isDigit then some (String.mk cs).toNat! else none

/-- One JS property access `cur[p]`.  Objects look up the field; arrays
accept canonical numeric indices.  Other receivers (and exotic built-in
properties such as array `length`, which the engine never dereferences)
read as `undefined`. -/
def jsGet (cur : JVal) (p : List Char) : JVal :=
  match cur with
  | .obj fs => mapGet fs (String.mk p)
  | .arr xs =>
    match natOfIndex p with
    | some i => (xs.get? i).getD .undef
    | none => .undef
  | _ => JVal.undef

/-- The descent loop of `readPath`: `if (cur == null) return undefined`
(which in JS catches both `null` and `undefined`), else `cur = cur[p]`. -/
def readPathGo : JVal → List (List Char) → JVal
  | cur, [] => cur
  | cur, p :: rest =>
    if cur = .undef ∨ cur = .null then .undef
    else readPathGo (jsGet cur p) rest

/-- `readPath(root, path)` (planner.ts lines 30-42). -/
def readPath (root : JVal) (path : String) : JVal :=
  readPathGo root ((splitDot (bracketToDot path.data)).filter (· ≠ []))

/-- `refValue` (planner.ts lines 120-125): read `"stepId"` or
`"stepId.path.to.field"` from the outputs map. -/
def refValue (out : List (String × JVal)) (ref : String) : JVal :=
  match splitDot ref.data with
  | [] => .undef
  | head :: rest =>
    let v := mapGet out (String.mk head)
    if rest.isEmpty then v else readPath v (String.mk (joinDots rest))

/-- The synonym fallback chain of `deepResolve` (planner.ts lines 134-144):
direct lookup, then `\bresult\b→results` / `\blink\b→url`, then the reverse
substitutions applied to the original reference, first defined value wins. -/
def lookupWithSynonyms (fromSteps : String → JVal) (ref : String) : JVal :=
  let v := fromSteps ref
  if v = .undef then
    let alt := String.mk (replaceWordRuns "link".data "url".data
      (replaceWordRuns "result".data "results".data ref.data))
    let v2 := fromSteps alt
    if v2 = .undef then
      let alt2 := String.mk (replaceWordRuns "url".data "link".data
        (replaceWordRuns "results".data "result".data ref.data))
      fromSteps alt2
    else v2
  else v

mutual

/-- `deepResolve` (planner.ts lines 128-160). -/
def deepResolve (val : JVal) (fromSteps : String → JVal) (item : Option JVal) : JVal :=
  match val with
  | .str s =>
    match parsePH s.data with
    | some mid =>
      let ref := String.mk (trimChars mid)
      if ref.startsWith "item" ∧ item.isSome then
        readPath (.obj [("item", item.getD .undef)]) ref
      else lookupWithSynonyms fromSteps ref
    | none => val
  | .arr xs => .arr (deepResolveList xs fromSteps item)
  | .obj fs =>
    match mapGet fs "var" with
    | .str ref =>
      if ref.startsWith "item" ∧ item.isSome then
        readPath (.obj [("item", item.getD .undef)]) ref
      else fromSteps ref
    | _ => .obj (deepResolveFields fs fromSteps item)
  | v => v

def deepResolveList (xs : List JVal) (fromSteps : String → JVal) (item : Option JVal) :
    List JVal :=
  match xs with
  | [] => []
  | v :: rest => deepResolve v fromSteps item :: deepResolveList rest fromSteps item

def deepResolveFields (fs : List (String × JVal)) (fromSteps : String → JVal)
    (item : Option JVal) : List (String × JVal) :=
  match fs with
  | [] => []
  | (k, v) :: rest =>
    (k, deepResolve v fromSteps item) :: deepResolveFields rest fromSteps item

end

/- ----------------------------------------------------------------
 * Condition evaluation  (planner.ts lines 249-275)
 * ---------------------------------------------------------------- -/

/-- JS truthiness. -/
def truthyB : JVal → Bool
  | .undef => false
  | .null => false
  | .bool b => b
  | .num n => n ≠ 0
  | .str s => s ≠ ""
  | .arr _ => true
  | .obj _ => true

/-- `Number(x)` coercion, partially: `none` models `NaN` (every comparison
with which is false).  Strings parse as integers; fractional or exotic
strings — which no claim exercises — conservatively read as `NaN`, as do
objects and arrays. -/
def toNumber : JVal → Option Int
  | .num n => some n
  | .bool b => some (if b then 1 else 0)
  | .null => some 0
  | .undef => none
  | .str s =>
    let t := String.mk (trimChars s.data)
    if t = "" then some 0 else t.toInt?
  | .arr _ => none
  | .obj _ => none

/-- Strict equality `===` on resolved values.  Object/array operands compare
by reference in JS; distinct evaluations yield distinct references, so the
model conservatively answers `false` for them. -/
def jsStrictEq : JVal → JVal → Bool
  | .undef, .undef => true
  | .null, .null => true
  | .bool a, .bool b => a == b
  | .num a, .num b => a == b
  | .str a, .str b => a == b
  | _, _ => false

/-- `resolveExpr` (planner.ts lines 269-275). -/
def resolveExpr (out : List (String × JVal)) : Expr → JVal
  | .var ref => refValue out ref
  | .value v => v

/-- `evalCondition` (planner.ts lines 249-267). -/
def evalCondition (out : List (String × JVal)) : Condition → Bool
  | .bare ref => truthyB (refValue out ref)
  | .truthy ref => truthyB (refValue out ref)
  | .eq l r => jsStrictEq (resolveExpr out l) (resolveExpr out r)
  | .gt l r =>
    match toNumber (resolveExpr out l), toNumber (resolveExpr out r) with
    | some a, some b => a > b
    | _, _ => false
  | .lt l r =>
    match toNumber (resolveExpr out l), toNumber (resolveExpr out r) with
    | some a, some b => a < b
    | _, _ => false

/- ----------------------------------------------------------------
 * Execution engine  (planner.ts lines 89-364)
 *
 * Determinism: the JS engine interleaves children of `parallel`/`map`
 * through a semaphore on the event loop.  The embedding fixes one
 * admissible schedule — children run sequentially in declared/index order —
 * which realizes both the fail-fast outcome (the first failing child's
 * error propagates) and every per-child property proved here.  Timeout
 * races (`Promise.race` against a timer) are modelled as the call
 * completing, since the canonical runner has no clock in this embedding.
 * ---------------------------------------------------------------- -/

/-- Thrown errors.  `external` stands for an arbitrary error raised by a
collaborator (agent router, tool, or cache); the other constructors are the
engine's own `throw new Error(...)` sites, carrying their interpolated
data. -/
inductive JErr where
  | external (msg : String)
  | toolNotFound (toolId : String)
  | schemaValidationFailed
  | mapItemsNotArray (itemsFrom : String)
  | invalidParallelChild (cid : String)
  | unsupportedParallelChild (kind : String)
  | invalidBranchStep (id : String)
  | budgetExceeded (elapsedMs maxMs : Nat)
  | stepTimeout (timeoutMs : Nat)
  deriving Repr, DecidableEq

/-- Events delivered to `opts.onEvent`, in order.  The `plan` event's
payload (the plan itself) is omitted from the constructor; `done` carries
the projected outputs. -/
inductive Event where
  | planEv
  | stepStart (stepId : String)
  | stepRetry (stepId : String) (attempt : Nat)
  | stepDone (stepId : String) (output : JVal)
  | doneEv (outputs : List (String × JVal))
  deriving DecidableEq

/-- Log of calls crossing the engine boundary: agent-router invocations,
tool invocations, and cache reads/writes. -/
inductive CallRec where
  | route (reqId agentId : String) (input : JVal)
  | toolCall (toolId : String) (args : JVal)
  | cacheGet (key : String)
  | cacheSet (key : String) (value : JVal) (ttlSeconds : Nat)
  deriving DecidableEq

def CallRec.isCacheOp : CallRec → Bool
  | .cacheGet _ => true
  | .cacheSet _ _ _ => true
  | _ => false

/-- Engine state: the outputs `Map`, the event trace, the call log. -/
structure RunSt where
  out : List (String × JVal)
  events : List Event
  calls : List CallRec
  deriving DecidableEq

def pushEvent (st : RunSt) (e : Event) : RunSt :=
  RunSt.mk st.out (st.events ++ [e]) st.calls

def pushCall (st : RunSt) (c : CallRec) : RunSt :=
  RunSt.mk st.out st.events (st.calls ++ [c])

def setOut (st : RunSt) (k : String) (v : JVal) : RunSt :=
  RunSt.mk (mapSet st.out k v) st.events st.calls

/-- The injected step cache: `get` may return any JS value (`undefined` and
`null` both read as a miss), and either operation may throw. -/
structure StepCache where
  get : String → Except JErr JVal
  set : String → JVal → Nat → Except JErr Unit

/-- The agent router, as the engine sees it: `route({id, agentId, input,
memoryScope})`.  `memoryScope` is passed through opaquely and omitted. -/
structure Router where
  route : String → String → JVal → Except JErr JVal

/-- `RunnerContext`: task id, base input, and the ad-hoc tools map. -/
structure Ctx where
  taskId : String
  input : JVal
  tools : String → Option (JVal → Except JErr JVal)

/-- `RunOptions` of the canonical runner (`onEvent` is modelled by the event
trace in `RunSt`). -/
structure RunOpts where
  maxConcurrency : Option Nat
  cache : Option StepCache
  defaultStepTTLSeconds : Option Nat

/-- `Math.max(0, opts.defaultStepTTLSeconds ?? 300)` (the clamp is a no-op
on naturals). -/
def defaultTTL (opts : RunOpts) : Nat := opts.defaultStepTTLSeconds.getD 300

/-- `s.guard?.retry?.max ?? 0`. -/
def retryMax (g : Option Guard) : Nat := ((g.bind Guard.retry).map RetrySpec.max).getD 0

/-- `s.guard?.retry?.backoffMs ?? 400`. -/
def retryBackoff (g : Option Guard) : Nat :=
  ((g.bind Guard.retry).bind RetrySpec.backoffMs).getD 400

/-- `validate` (planner.ts lines 112-117). -/
def validate (guard : Option Guard) (v : JVal) : Bool :=
  match guard with
  | none => true
  | some g =>
    match g.schema with
    | none => true
    | some p => p v

/-- `readInputs` (planner.ts lines 102-109). -/
def readInputs (ctx : Ctx) (out : List (String × JVal))
    (inputFrom : Option (List String)) : JVal :=
  match inputFrom with
  | none => ctx.input
  | some [] => ctx.input
  | some [a] => mapGet out a
  | some ids => .arr (ids.map (mapGet out))

/-- `${ctx.taskId}:${s.id}:${attempt}`. -/
def routeId (taskId sid : String) (attempt : Nat) : String :=
  taskId ++ ":" ++ sid ++ ":" ++ toString attempt

/-- `doExec` (planner.ts lines 205-220): dispatch the collaborator call for
one attempt.  Returns the outcome and the boundary call made (none when the
tool is missing from the map). -/
def doExec (router : Router) (ctx : Ctx) (out : List (String × JVal)) (s : MT)
    (attempt : Nat) (input : JVal) : Except JErr JVal × Option CallRec :=
  match s with
  | .model ms =>
    let rid := routeId ctx.taskId ms.id attempt
    (router.route rid ms.agent input, some (.route rid ms.agent input))
  | .tool ts =>
    match ctx.tools ts.toolId with
    | none => (.error (.toolNotFound ts.toolId), none)
    | some t =>
      let args := deepResolve (ts.args.getD input) (refValue out) none
      (t args, some (.toolCall ts.toolId args))

/-- The cache key computed per attempt (planner.ts lines 194-195):
`s.cacheKey === "auto" ? autoCacheKey(s, input) : typeof s.cacheKey ===
"string" ? s.cacheKey : null`. -/
def stepCacheKey (s : MT) (input : JVal) : Option String :=
  match s.cacheKey with
  | some .auto => some (autoCacheKey s input)
  | some (.explicit k) => some k
  | none => none

/-- The executing tail of the `try` block: collaborator call, schema check,
cache write, `step:done` (planner.ts lines 204-238). -/
def execMain (router : Router) (ctx : Ctx) (opts : RunOpts) (s : MT) (attempt : Nat)
    (input : JVal) (cacheKey : Option String) (st : RunSt) : Except JErr JVal × RunSt :=
  let dres := doExec router ctx st.out s attempt input
  let st :=
    match dres.2 with
    | some cr => pushCall st cr
    | none => st
  match dres.1 with
  | .error e => (.error e, st)
  | .ok result =>
    if validate s.guard result = false then (.error .schemaValidationFailed, st)
    else
      match cacheKey, opts.cache with
      | some key, some c =>
        let st := pushCall st (.cacheSet key result (defaultTTL opts))
        match c.set key result (defaultTTL opts) with
        | .error e => (.error e, st)
        | .ok _ => (.ok result, pushEvent st (.stepDone s.id result))
      | _, _ => (.ok result, pushEvent st (.stepDone s.id result))

/-- One iteration of the `try` block of `execWithRetry` (planner.ts lines
190-238): resolve inputs, attempt a cache hit, then run `execMain`.  Any
`.error` outcome is what the `catch` clause receives. -/
def execTryBody (router : Router) (ctx : Ctx) (opts : RunOpts) (s : MT) (attempt : Nat)
    (st : RunSt) : Except JErr JVal × RunSt :=
  let input := readInputs ctx st.out s.inputFrom
  let cacheKey := stepCacheKey s input
  match cacheKey, opts.cache with
  | some key, some c =>
    let st₁ := pushCall st (.cacheGet key)
    match c.get key with
    | .error e => (.error e, st₁)
    | .ok hit =>
      if hit ≠ .undef ∧ hit ≠ .null then
        (.ok hit, pushEvent st₁ (.stepDone s.id hit))
      else execMain router ctx opts s attempt input cacheKey st₁
  | _, _ => execMain router ctx opts s attempt input cacheKey st

/-- The retry loop of `execWithRetry` (planner.ts lines 182-246), phrased
with explicit fuel: `fuel = max - attempt`, so `fuel = 0` is exactly the
source's `attempt >= max` exit, and the recursive call is the source's
`attempt++` with one unit of fuel consumed.  The backoff sleep has no
observable effect in the untimed model. -/
def execIter (router : Router) (ctx : Ctx) (opts : RunOpts) (s : MT) :
    Nat → Nat → RunSt → Except JErr JVal × RunSt
  | attempt, fuel, st =>
    let st₀ := pushEvent st (.stepStart s.id)
    match execTryBody router ctx opts s attempt st₀ with
    | (.ok v, st') => (.ok v, st')
    | (.error e, st') =>
      match fuel with
      | 0 => (.error e, st')
      | fuel' + 1 =>
        execIter router ctx opts s (attempt + 1) fuel'
          (pushEvent st' (.stepRetry s.id (attempt + 1)))

/-- `execWithRetry` (planner.ts lines 182-246). -/
def execWithRetry (router : Router) (ctx : Ctx) (opts : RunOpts) (s : MT)
    (st : RunSt) : Except JErr JVal × RunSt :=
  execIter router ctx opts s 0 (retryMax s.guard) st

/- ----------------------------------------------------------------
 * Step dispatch  (planner.ts lines 277-364)
 * ---------------------------------------------------------------- -/

/-- `new Map(plan.steps.map(s => [s.id, s]))`: on duplicate ids the later
step wins. -/
def stepById (steps : List PlanStep) (id : String) : Option PlanStep :=
  steps.reverse.find? fun s => s.id == id

/-- The direct invocation of a map child for one element (planner.ts lines
327-344): resolve the child input and args, then call the router or tool —
with no `step:start`/`step:done`, no guard validation, no retry, and no
cache.  Returns the outcome and the boundary call (none when the tool is
missing). -/
def mapChildCall (router : Router) (ctx : Ctx) (ms : MapStep)
    (out : List (String × JVal)) (item : JVal) (idx : Nat) :
    Except JErr JVal × Option CallRec :=
  let childInput :=
    if ms.fromItemAsInput.getD false then item
    else readInputs ctx out ms.child.inputFrom
  match ms.child with
  | .model agent _ _ _ _ =>
    -- `${ctx.taskId}:${childId}` where childId = `${s.id}:${idx}`
    let rid := ctx.taskId ++ ":" ++ ms.id ++ ":" ++ toString idx
    (router.route rid agent childInput, some (.route rid agent childInput))
  | .tool toolId cargs _ _ _ _ =>
    match ctx.tools toolId with
    | none => (.error (.toolNotFound toolId), none)
    | some t =>
      let rawArgs := cargs.getD childInput
      let args := deepResolve rawArgs (refValue out) (some item)
      (t args, some (.toolCall toolId args))

/-- Per-item loop of the `map` dispatch (planner.ts lines 323-348),
sequential in index order; results are collected in element order and the
first failing element rejects the whole loop. -/
def execMapItems (router : Router) (ctx : Ctx) (ms : MapStep) :
    List JVal → Nat → RunSt → Except JErr (List JVal) × RunSt
  | [], _, st => (.ok [], st)
  | item :: rest, idx, st =>
    let co := mapChildCall router ctx ms st.out item idx
    let st₁ :=
      match co.2 with
      | some cr => pushCall st cr
      | none => st
    match co.1 with
    | .error e => (.error e, st₁)
    | .ok r =>
      match execMapItems router ctx ms rest (idx + 1) st₁ with
      | (.ok results, st') => (.ok (r :: results), st')
      | (.error e, st') => (.error e, st')

/-- Leaf dispatch shared by the top level, `parallel` children and `branch`
sequences: run the wrapper and store the result. -/
def runLeaf (router : Router) (ctx : Ctx) (opts : RunOpts) (s : MT) (st : RunSt) :
    Except JErr Unit × RunSt :=
  match execWithRetry router ctx opts s st with
  | (.ok r, st') => (.ok (), setOut st' s.id r)
  | (.error e, st') => (.error e, st')

/-- Sequential execution of a `branch`'s chosen `then`/`else` ids
(planner.ts lines 302-309).  A `map` step reached here falls into the leaf
wrapper in the source and fails as `Tool not found: undefined` (its `toolId`
is undefined); the model shortcuts to the same error. -/
def runSeq (router : Router) (ctx : Ctx) (opts : RunOpts) (steps : List PlanStep) :
    List String → RunSt → Except JErr Unit × RunSt
  | [], st => (.ok (), st)
  | id :: rest, st =>
    match stepById steps id with
    | none => (.error (.invalidBranchStep id), st)
    | some (.parallel _ _ _) => (.error (.invalidBranchStep id), st)
    | some (.branch _ _ _) => (.error (.invalidBranchStep id), st)
    | some (.mapStep _) => (.error (.toolNotFound "undefined"), st)
    | some (.model m) =>
      match runLeaf router ctx opts (.model m) st with
      | (.ok _, st') => runSeq router ctx opts steps rest st'
      | (.error e, st') => (.error e, st')
    | some (.tool t) =>
      match runLeaf router ctx opts (.tool t) st with
      | (.ok _, st') => runSeq router ctx opts steps rest st'
      | (.error e, st') => (.error e, st')

/-- `parallel` dispatch (planner.ts lines 282-295), under the sequential
schedule. -/
def runParallelChildren (router : Router) (ctx : Ctx) (opts : RunOpts)
    (steps : List PlanStep) : List String → RunSt → Except JErr Unit × RunSt
  | [], st => (.ok (), st)
  | cid :: rest, st =>
    match stepById steps cid with
    | none => (.error (.invalidParallelChild cid), st)
    | some (.parallel _ _ _) => (.error (.invalidParallelChild cid), st)
    | some (.branch _ _ _) => (.error (.unsupportedParallelChild "branch"), st)
    | some (.mapStep _) => (.error (.unsupportedParallelChild "map"), st)
    | some (.model m) =>
      match runLeaf router ctx opts (.model m) st with
      | (.ok _, st') => runParallelChildren router ctx opts steps rest st'
      | (.error e, st') => (.error e, st')
    | some (.tool t) =>
      match runLeaf router ctx opts (.tool t) st with
      | (.ok _, st') => runParallelChildren router ctx opts steps rest st'
      | (.error e, st') => (.error e, st')

/-- `map` dispatch (planner.ts lines 313-352). -/
def runMapStep (router : Router) (ctx : Ctx) (ms : MapStep) (st : RunSt) :
    Except JErr Unit × RunSt :=
  match mapGet st.out ms.itemsFrom with
  | .arr items =>
    match execMapItems router ctx ms items 0 st with
    | (.ok results, st') => (.ok (), setOut st' ms.id (.arr results))
    | (.error e, st') => (.error e, st')
  | _ => (.error (.mapItemsNotArray ms.itemsFrom), st)

/-- Dispatch one top-level step by kind. -/
def runStep (router : Router) (ctx : Ctx) (opts : RunOpts) (steps : List PlanStep)
    (s : PlanStep) (st : RunSt) : Except JErr Unit × RunSt :=
  match s with
  | .parallel _ children _ => runParallelChildren router ctx opts steps children st
  | .branch _ branches elseSeq =>
    let picked := branches.find? fun b => evalCondition st.out b.when
    let seq :=
      match picked with
      | some b => b.then_
      | none => elseSeq.getD []
    runSeq router ctx opts steps seq st
  | .mapStep ms => runMapStep router ctx ms st
  | .model m => runLeaf router ctx opts (.model m) st
  | .tool t => runLeaf router ctx opts (.tool t) st

/-- The top-level `for (const s of plan.steps)` loop. -/
def runSteps (router : Router) (ctx : Ctx) (opts : RunOpts) (steps : List PlanStep) :
    List PlanStep → RunSt → Except JErr Unit × RunSt
  | [], st => (.ok (), st)
  | s :: rest, st =>
    match runStep router ctx opts steps s st with
    | (.ok _, st') => runSteps router ctx opts steps rest st'
    | (.error e, st') => (.error e, st')

/-- Output projection (planner.ts lines 359-360): `for (const id of
plan.outputs) outputs[id] = out.get(id)`. -/
def projectOutputs (outIds : List String) (out : List (String × JVal)) :
    List (String × JVal) :=
  outIds.foldl (fun acc id => objAssign acc id (mapGet out id)) []

/-- `runPlan` (planner.ts lines 89-364): returns the projected outputs or
the propagated error, together with the final engine state. -/
def runPlan (router : Router) (ctx : Ctx) (opts : RunOpts) (plan : Plan) :
    Except JErr (List (String × JVal)) × RunSt :=
  let st := RunSt.mk [] [Event.planEv] []
  match runSteps router ctx opts plan.steps plan.steps st with
  | (.error e, st') => (.error e, st')
  | (.ok _, st') =>
    let outputs := projectOutputs plan.outputs st'.out
    (.ok outputs, pushEvent st' (.doneEv outputs))

/- ----------------------------------------------------------------
 * Variant runner with wall-clock budget
 * (the `planner.ts` revision defining `checkBudget`, `deriveCacheKey`,
 * `execModelStep`/`execToolStep` and its own `execWithRetry`;
 * execWithRetry spans lines 185-254 of that revision)
 *
 * Time is modelled by a millisecond counter in the state, advanced at the
 * suspension points: awaiting a cache read/write (the oracle supplies the
 * elapsed time), awaiting the collaborator call (the oracle supplies the
 * call's duration), and the backoff sleep.  A dispatched call's duration
 * elapses only once the engine awaits it, matching the event loop: the
 * mid-attempt `checkBudget()` (placed after the cache read and before
 * `await raced`) reads the pre-await clock.
 * ---------------------------------------------------------------- -/

namespace Budget

/-- Engine state of the variant runner: clock plus the canonical state. -/
structure BState where
  now : Nat
  out : List (String × JVal)
  events : List Event
  calls : List CallRec
  deriving DecidableEq

def bPushEvent (st : BState) (e : Event) : BState :=
  BState.mk st.now st.out (st.events ++ [e]) st.calls

def bPushCall (st : BState) (c : CallRec) : BState :=
  BState.mk st.now st.out st.events (st.calls ++ [c])

def bElapse (st : BState) (d : Nat) : BState :=
  BState.mk (st.now + d) st.out st.events st.calls

/-- Cache whose operations take time: each returns its outcome and the
milliseconds spent awaiting it. -/
structure BCache where
  get : String → Except JErr JVal × Nat
  set : String → JVal → Nat → Except JErr Unit × Nat

/-- Agent router with call durations. -/
structure BRouter where
  route : String → String → JVal → Except JErr JVal × Nat

/-- Context with timed tools. -/
structure BCtx where
  taskId : String
  input : JVal
  tools : String → Option (JVal → Except JErr JVal × Nat)

/-- `RunOptions` of the variant runner: adds `budget.maxLatencyMs` and the
run-level `stepTimeoutMs`. -/
structure BOpts where
  budgetMaxLatencyMs : Option Nat
  stepTimeoutMs : Option Nat
  cache : Option BCache
  defaultStepTTLSeconds : Option Nat

/-- `checkBudget` (variant lines 146-151): `maxMs = opts.budget?.maxLatencyMs
?? Infinity; if (getElapsed() > maxMs) throw`.  Returns the error it would
throw, if any. -/
def checkBudget (opts : BOpts) (planStart now : Nat) : Option JErr :=
  match opts.budgetMaxLatencyMs with
  | none => none
  | some maxMs =>
    if now - planStart > maxMs then some (.budgetExceeded (now - planStart) maxMs)
    else none

/-- `deriveCacheKey` (variant lines 178-183).  `null` without a configured
cache; an explicit key is prefixed with `step:{id}:`; `"auto"` and an
*absent* key both derive from the stable input signature.  A present but
empty explicit key is falsy in JS and falls through every branch to
`null`. -/
def deriveCacheKey (opts : BOpts) (stepId : String) (input : JVal)
    (explicitKey : Option CacheKeySpec) : Option String :=
  match opts.cache with
  | none => none
  | some _ =>
    match explicitKey with
    | some (.explicit k) =>
      if k = "" then none else some ("step:" ++ stepId ++ ":" ++ k)
    | some .auto => some ("step:" ++ stepId ++ ":" ++ stableStringify input)
    | none => some ("step:" ++ stepId ++ ":" ++ stableStringify input)

/-- `s.timeoutMs ?? opts.stepTimeoutMs ?? 0`. -/
def bTimeoutMs (opts : BOpts) (s : MT) : Nat :=
  (match s with
    | .model ms => ms.timeoutMs
    | .tool ts => ts.timeoutMs).getD (opts.stepTimeoutMs.getD 0)

/-- `readInputs` of the variant (lines 153-157); same shape as the
canonical one. -/
def bReadInputs (ctx : BCtx) (out : List (String × JVal))
    (inputFrom : Option (List String)) : JVal :=
  match inputFrom with
  | none => ctx.input
  | some [] => ctx.input
  | some [a] => mapGet out a
  | some ids => .arr (ids.map (mapGet out))

/-- Dispatch of `execModelStep`/`execToolStep` (variant lines 159-176):
outcome, duration, and the boundary call.  The variant's tool path passes
`s.args ?? input` verbatim (it has no placeholder resolver). -/
def bDoStep (router : BRouter) (ctx : BCtx) (out : List (String × JVal)) (s : MT)
    (attempt : Nat) : Except JErr JVal × Nat × Option CallRec :=
  let input := bReadInputs ctx out s.inputFrom
  match s with
  | .model ms =>
    let rid := routeId ctx.taskId ms.id attempt
    let r := router.route rid ms.agent input
    (r.1, r.2, some (.route rid ms.agent input))
  | .tool ts =>
    match ctx.tools ts.toolId with
    | none => (.error (.toolNotFound ts.toolId), 0, none)
    | some t =>
      let args := ts.args.getD input
      let r := t args
      (r.1, r.2, some (.toolCall ts.toolId args))

/-- The `try` block of the variant `execWithRetry` (lines 200-244): cache
read, call dispatch, the mid-attempt budget check (against the pre-await
clock), the timeout race, schema check, cache write.  Every `.error`
produced here lands in the `catch` clause. -/
def bTryBody (router : BRouter) (ctx : BCtx) (opts : BOpts) (planStart : Nat)
    (s : MT) (attempt : Nat) (st : BState) : Except JErr JVal × BState :=
  let input := bReadInputs ctx st.out s.inputFrom
  let cacheKey := deriveCacheKey opts s.id input s.cacheKey
  let afterCache : Except JErr (Option JVal) × BState :=
    match cacheKey, opts.cache with
    | some key, some c =>
      let st₁ := bPushCall st (.cacheGet key)
      let r := c.get key
      let st₂ := bElapse st₁ r.2
      match r.1 with
      | .error e => (.error e, st₂)
      | .ok hit =>
        if hit ≠ .undef ∧ hit ≠ .null then (.ok (some hit), st₂)
        else (.ok none, st₂)
    | _, _ => (.ok none, st)
  match afterCache with
  | (.error e, st') => (.error e, st')
  | (.ok (some hit), st') => (.ok hit, bPushEvent st' (.stepDone s.id hit))
  | (.ok none, st') =>
    -- the call starts now; its duration elapses only at the await below
    let d := bDoStep router ctx st'.out s attempt
    let st₂ :=
      match d.2.2 with
      | some cr => bPushCall st' cr
      | none => st'
    match checkBudget opts planStart st₂.now with
    | some e => (.error e, st₂)
    | none =>
      let timeoutMs := bTimeoutMs opts s
      let raced : Except JErr JVal × BState :=
        if timeoutMs > 0 ∧ d.2.1 > timeoutMs then
          (.error (.stepTimeout timeoutMs), bElapse st₂ timeoutMs)
        else (d.1, bElapse st₂ d.2.1)
      match raced with
      | (.error e, st₃) => (.error e, st₃)
      | (.ok result, st₃) =>
        if validate s.guard result = false then (.error .schemaValidationFailed, st₃)
        else
          match cacheKey, opts.cache with
          | some key, some c =>
            let ttl := opts.defaultStepTTLSeconds.getD 300
            let st₄ := bPushCall st₃ (.cacheSet key result ttl)
            let w := c.set key result ttl
            let st₅ := bElapse st₄ w.2
            match w.1 with
            | .error e => (.error e, st₅)
            | .ok _ => (.ok result, bPushEvent st₅ (.stepDone s.id result))
          | _, _ => (.ok result, bPushEvent st₃ (.stepDone s.id result))

/-- The retry loop of the variant `execWithRetry` (lines 185-254), with
`fuel = max - attempt` as in the canonical embedding.  The budget check at
the head of each iteration sits *outside* the `try`: its error returns
directly, bypassing the retry handler.  The backoff sleep advances the
clock by `backoffMs * attemptNumber`. -/
def bIter (router : BRouter) (ctx : BCtx) (opts : BOpts) (planStart : Nat)
    (s : MT) (backoff : Nat) : Nat → Nat → BState → Except JErr JVal × BState
  | attempt, fuel, st =>
    let st₀ := bPushEvent st (.stepStart s.id)
    match checkBudget opts planStart st₀.now with
    | some e => (.error e, st₀)
    | none =>
      match bTryBody router ctx opts planStart s attempt st₀ with
      | (.ok v, st') => (.ok v, st')
      | (.error e, st') =>
        match fuel with
        | 0 => (.error e, st')
        | fuel' + 1 =>
          let st'' := bPushEvent st' (.stepRetry s.id (attempt + 1))
          bIter router ctx opts planStart s backoff (attempt + 1) fuel'
            (bElapse st'' (backoff * (attempt + 1)))

/-- The variant `execWithRetry` (lines 185-254). -/
def bExecWithRetry (router : BRouter) (ctx : BCtx) (opts : BOpts) (planStart : Nat)
    (s : MT) (st : BState) : Except JErr JVal × BState :=
  bIter router ctx opts planStart s (retryBackoff s.guard) 0 (retryMax s.guard) st

end Budget

/- ----------------------------------------------------------------
 * Supporting definitions for the verification development
 * ---------------------------------------------------------------- -/

instance {ε α : Type} [DecidableEq ε] [DecidableEq α] : DecidableEq (Except ε α) := fun a b =>
  match a, b with
  | .ok x, .ok y => decidable_of_iff (x = y) (by simp)
  | .error x, .error y => decidable_of_iff (x = y) (by simp)
  | .ok _, .error _ => isFalse (by simp)
  | .error _, .ok _ => isFalse (by simp)

/-- The event trace of a run of the retry loop that fails on every attempt,
starting at attempt number `attempt` with `fuel` retries left. -/
def failEvents (sid : String) : Nat → Nat → List Event
  | _, 0 => [.stepStart sid]
  | attempt, fuel + 1 =>
    .stepStart sid :: .stepRetry sid (attempt + 1) :: failEvents sid (attempt + 1) fuel

/-- The boundary calls of such a run, one per attempt. -/
def failCalls (callF : Nat → CallRec) : Nat → Nat → List CallRec
  | attempt, 0 => [callF attempt]
  | attempt, fuel + 1 => callF attempt :: failCalls callF (attempt + 1) fuel

/-- The key used by a cache operation, when the call is one. -/
def cacheOpKey : CallRec → Option String
  | .cacheGet k => some k
  | .cacheSet k _ _ => some k
  | _ => none

/-- `Array.isArray`. -/
def isArrB : JVal → Bool
  | .arr _ => true
  | _ => false

/-- A nonempty segment of word characters (an identifier-like dotted-path
segment). -/
def wordySeg (cs : List Char) : Bool := !cs.isEmpty && cs.all isWordChar

/-- Dotted interleaving of segments: `[s₀, ['.'], s₁, ['.'], ...]`. -/
def interleaveDots : List (List Char) → List (List Char)
  | [] => []
  | [s] => [s]
  | s :: rest => s :: ['.'] :: interleaveDots rest

/-- Whole-segment substitution (what a word-boundary regex replacement does
to an identifier segment). -/
def synonymF (a b s : List Char) : List Char := if s = a then b else s


end Bolt

/- ================================================================
 * Claim theorems
 * ================================================================ -/

namespace Bolt

mutual

theorem keyEquivRefl : ∀ v : JVal, KeyEquiv v v
  | .undef => .undef
  | .null => .null
  | .bool b => .bool b
  | .num n => .num n
  | .str s => .str s
  | .arr xs => .arr (keyEquivListRefl xs)
  | .obj fs => .obj (List.Perm.refl fs) (keyEquivFieldsRefl fs)

theorem keyEquivListRefl : ∀ xs : List JVal, KeyEquivList xs xs
  | [] => .nil
  | x :: xs => .cons (keyEquivRefl x) (keyEquivListRefl xs)

theorem keyEquivFieldsRefl : ∀ fs : List (String × JVal), KeyEquivFields fs fs
  | [] => .nil
  | p :: ps => .cons rfl (keyEquivRefl p.2) (keyEquivFieldsRefl ps)

end

theorem distinctKeys_iff_nodup : ∀ ks : List String, distinctKeys ks = true ↔ ks.Nodup := by
  intro ks
  induction ks with
  | nil => simp [distinctKeys]
  | cons k rest ih =>
    simp [distinctKeys, List.nodup_cons, ih, List.elem_iff]

/-- Rendering fields keeps the keys. -/
theorem jstrFields_map_fst (fs : List (String × JVal)) :
    (jstrFields fs).map Prod.fst = fs.map Prod.fst := by
  induction fs with
  | nil => simp [jstrFields]
  | cons p rest ih =>
    obtain ⟨k, v⟩ := p
    simp [jstrFields, ih]

/-- Sorting rendered fields by key is invariant under permutation, provided
the keys are pairwise distinct. -/
theorem insertionSort_eq_of_perm_of_nodup_keys
    {l₁ l₂ : List (String × Option String)} (hp : l₁.Perm l₂)
    (hnd : (l₁.map Prod.fst).Nodup) :
    List.insertionSort fieldLE l₁ = List.insertionSort fieldLE l₂ := by
  haveI : IsAntisymm (String × Option String) (fun a b => a.1 < b.1) :=
    ⟨fun a b h h' => absurd h' (not_lt.mpr (le_of_lt h))⟩
  have hperm : (List.insertionSort fieldLE l₁).Perm (List.insertionSort fieldLE l₂) :=
    (List.perm_insertionSort fieldLE l₁).trans
      (hp.trans (List.perm_insertionSort fieldLE l₂).symm)
  have hnd₂ : (l₂.map Prod.fst).Nodup := ((hp.map Prod.fst).nodup_iff).mp hnd
  have strict : ∀ l : List (String × Option String), (l.map Prod.fst).Nodup →
      List.Sorted (fun a b : String × Option String => a.1 < b.1)
        (List.insertionSort fieldLE l) := by
    intro l hl
    have hsorted : List.Sorted fieldLE (List.insertionSort fieldLE l) :=
      List.sorted_insertionSort fieldLE l
    have hlnd : ((List.insertionSort fieldLE l).map Prod.fst).Nodup :=
      (((List.perm_insertionSort fieldLE l).map Prod.fst).nodup_iff).mpr hl
    have hne : List.Pairwise (fun a b : String × Option String => a.1 ≠ b.1)
        (List.insertionSort fieldLE l) := List.pairwise_map.mp hlnd
    exact (hsorted.and hne).imp fun h => lt_of_le_of_ne h.1 h.2
  exact List.eq_of_perm_of_sorted hperm (strict l₁ hnd) (strict l₂ hnd₂)

/-- `jstrFields` maps a permutation of fields to a permutation of rendered
fields. -/
theorem jstrFields_perm {fs hs : List (String × JVal)} (h : fs.Perm hs) :
    (jstrFields fs).Perm (jstrFields hs) := by
  have expand : ∀ l : List (String × JVal),
      jstrFields l = l.map fun p => (p.1, jstr p.2) := by
    intro l
    induction l with
    | nil => rfl
    | cons p rest ih => obtain ⟨k, v⟩ := p; simp [jstrFields, ih]
  rw [expand, expand]
  exact h.map _

/-- `nodupKeysBFields` only looks at the multiset of fields. -/
theorem nodupKeysBFields_perm {fs hs : List (String × JVal)} (h : fs.Perm hs) :
    nodupKeysBFields fs = nodupKeysBFields hs := by
  have expand : ∀ l : List (String × JVal),
      nodupKeysBFields l = l.all fun p => nodupKeysB p.2 := by
    intro l
    induction l with
    | nil => rfl
    | cons p rest ih => obtain ⟨k, v⟩ := p; simp [nodupKeysBFields, ih]
  rw [expand, expand]
  exact Bool.eq_iff_iff.mpr (by
    simp only [List.all_eq_true]
    constructor <;> intro ha x hx
    · exact ha x (h.symm.subset hx)
    · exact ha x (h.subset hx))

mutual

/-- The stable serializer does not see object-key insertion order: values
equal up to recursive key reordering (with duplicate-free keys) serialize
identically. -/
theorem jstr_keyEquiv : ∀ {a b : JVal}, KeyEquiv a b → nodupKeysB a = true →
    jstr a = jstr b
  | _, _, .undef, _ => rfl
  | _, _, .null, _ => rfl
  | _, _, .bool _, _ => rfl
  | _, _, .num _, _ => rfl
  | _, _, .str _, _ => rfl
  | _, _, .arr h, hnd => by
      simp only [jstr]
      rw [jstrElems_keyEquiv h (by simpa [nodupKeysB] using hnd)]
  | _, _, .obj hperm hfields, hnd => by
      rename_i fs hs gs
      simp only [nodupKeysB, Bool.and_eq_true] at hnd
      have hvals : nodupKeysBFields hs = true := by
        have := nodupKeysBFields_perm hperm
        rw [← this]
        exact hnd.2
      have hrender : jstrFields hs = jstrFields gs := jstrFields_keyEquiv hfields hvals
      have hrperm : (jstrFields fs).Perm (jstrFields hs) := jstrFields_perm hperm
      have hnd' : ((jstrFields fs).map Prod.fst).Nodup := by
        rw [jstrFields_map_fst]
        exact (distinctKeys_iff_nodup _).mp hnd.1
      simp only [jstr]
      rw [insertionSort_eq_of_perm_of_nodup_keys hrperm hnd', hrender]

theorem jstrElems_keyEquiv : ∀ {xs ys : List JVal}, KeyEquivList xs ys →
    nodupKeysBList xs = true → jstrElems xs = jstrElems ys
  | _, _, .nil, _ => rfl
  | _, _, .cons h hs, hnd => by
      simp only [nodupKeysBList, Bool.and_eq_true] at hnd
      simp only [jstrElems]
      rw [jstr_keyEquiv h hnd.1, jstrElems_keyEquiv hs hnd.2]

theorem jstrFields_keyEquiv : ∀ {ps qs : List (String × JVal)}, KeyEquivFields ps qs →
    nodupKeysBFields ps = true → jstrFields ps = jstrFields qs
  | _, _, .nil, _ => rfl
  | _, _, .cons hk hv hrest, hnd => by
      rename_i p q ps qs
      obtain ⟨k, v⟩ := p
      obtain ⟨l, w⟩ := q
      simp only [nodupKeysBFields, Bool.and_eq_true] at hnd
      simp only [jstrFields]
      have hk' : k = l := hk
      rw [hk', jstr_keyEquiv hv hnd.1, jstrFields_keyEquiv hrest hnd.2]

end

/- ----------------------------------------------------------------
 * Shared facts about the retry loop
 * ---------------------------------------------------------------- -/

theorem pushEvent_out (st : RunSt) (e : Event) : (pushEvent st e).out = st.out := rfl

theorem pushCall_out (st : RunSt) (c : CallRec) : (pushCall st c).out = st.out := rfl

/-- One-step unfolding of the retry loop (the recursion is structural on the
fuel, so each shape reduces definitionally). -/
theorem execIter_eq (router : Router) (ctx : Ctx) (opts : RunOpts) (s : MT)
    (attempt fuel : Nat) (st : RunSt) :
    execIter router ctx opts s attempt fuel st =
      match execTryBody router ctx opts s attempt (pushEvent st (.stepStart s.id)) with
      | (.ok v, st') => (.ok v, st')
      | (.error e, st') =>
        match fuel with
        | 0 => (.error e, st')
        | fuel' + 1 =>
          execIter router ctx opts s (attempt + 1) fuel'
            (pushEvent st' (.stepRetry s.id (attempt + 1))) := by
  rw [execIter]

/-- When a step carries no `cacheKey`, no cache key is computed. -/
theorem stepCacheKey_none {s : MT} (h : s.cacheKey = none) (input : JVal) :
    stepCacheKey s input = none := by
  unfold stepCacheKey
  rw [h]

/-- Behaviour of the retry loop when every attempt's collaborator call
fails (for an uncached step, so every attempt reaches the collaborator):
the loop runs `fuel + 1` attempts, logging `failEvents`/`failCalls`, and
propagates the final attempt's error. -/
theorem execIter_always_fails (router : Router) (ctx : Ctx) (opts : RunOpts)
    (s : MT) (errF : Nat → JErr) (callF : Nat → CallRec)
    (hck : s.cacheKey = none) :
    ∀ (fuel attempt : Nat) (st : RunSt),
    (∀ k, doExec router ctx st.out s k (readInputs ctx st.out s.inputFrom) =
      (.error (errF k), some (callF k))) →
    execIter router ctx opts s attempt fuel st =
      (.error (errF (attempt + fuel)),
       RunSt.mk st.out
         (st.events ++ failEvents s.id attempt fuel)
         (st.calls ++ failCalls callF attempt fuel)) := by
  intro fuel
  induction fuel with
  | zero =>
    intro attempt st hfail
    rw [execIter_eq]
    simp only [execTryBody, stepCacheKey_none hck, execMain, pushEvent_out,
      hfail attempt]
    simp [pushEvent, pushCall, failEvents, failCalls]
  | succ fuel ih =>
    intro attempt st hfail
    rw [execIter_eq]
    simp only [execTryBody, stepCacheKey_none hck, execMain, pushEvent_out,
      hfail attempt]
    rw [ih (attempt + 1)
      (pushEvent (pushCall (pushEvent st (.stepStart s.id)) (callF attempt))
        (.stepRetry s.id (attempt + 1)))
      (by intro k; simpa [pushEvent, pushCall] using hfail k)]
    have harith : attempt + 1 + fuel = attempt + (fuel + 1) := by omega
    simp [pushEvent, pushCall, failEvents, failCalls, harith]

/-- Closed form of `failCalls`: one call per attempt number. -/
theorem failCalls_eq (callF : Nat → CallRec) :
    ∀ n a, failCalls callF a n = (List.range (n + 1)).map fun i => callF (a + i) := by
  intro n
  induction n with
  | zero =>
    intro a
    rw [show List.range 1 = [0] by rfl]
    simp [failCalls]
  | succ n ih =>
    intro a
    rw [failCalls, ih (a + 1), List.range_succ_eq_map (n + 1)]
    simp only [List.map_cons, List.map_map, Nat.add_zero]
    congr 1
    apply List.map_congr_left
    intro i _
    simp only [Function.comp_apply, Nat.succ_eq_add_one]
    congr 1
    omega

/-- Closed form of `failEvents`: a `step:start` per attempt interleaved
with `step:retry` carrying attempt numbers `a+1, a+2, ...`. -/
theorem failEvents_eq (sid : String) :
    ∀ n a, failEvents sid a n =
      ((List.range n).flatMap fun i =>
        [.stepStart sid, .stepRetry sid (a + i + 1)]) ++ [.stepStart sid] := by
  intro n
  induction n with
  | zero => intro a; simp [failEvents]
  | succ n ih =>
    intro a
    rw [failEvents, ih (a + 1), List.range_succ_eq_map n]
    simp only [List.flatMap_cons, Nat.add_zero, List.flatMap_map]
    have h2 : ((List.range n).flatMap fun i =>
        [Event.stepStart sid, Event.stepRetry sid (a + 1 + i + 1)]) =
        (List.range n).flatMap ((fun i =>
          [Event.stepStart sid, Event.stepRetry sid (a + i + 1)]) ∘ Nat.succ) := by
      apply List.flatMap_congr
      intro i _
      simp only [Function.comp_apply, Nat.succ_eq_add_one]
      have h3 : a + 1 + i + 1 = a + (i + 1) + 1 := by omega
      rw [h3]
    rw [h2]
    simp only [List.cons_append, List.nil_append, List.append_assoc]
    rfl

/-- C1: a leaf (model or tool) step whose guard is `{retry: {max: N}}` and
whose collaborator call fails on every attempt is attempted exactly `N + 1`
times (one boundary call per attempt, attempts numbered `0..N`), emits
`step:retry` with attempt numbers `1..N` interleaved with the per-attempt
`step:start`, and propagates the last attempt's error.  The step is
uncached (`cacheKey` absent), so every attempt reaches the collaborator. -/
theorem c1_retry_bound (router : Router) (ctx : Ctx) (opts : RunOpts) (s : MT)
    (N : Nat) (sch : Option (JVal → Bool)) (bo : Option Nat)
    (errF : Nat → JErr) (callF : Nat → CallRec) (st : RunSt)
    (hg : s.guard = some (Guard.mk sch (some (RetrySpec.mk N bo))))
    (hck : s.cacheKey = none)
    (hfail : ∀ k, doExec router ctx st.out s k (readInputs ctx st.out s.inputFrom) =
      (.error (errF k), some (callF k))) :
    execWithRetry router ctx opts s st =
      (.error (errF N),
       RunSt.mk st.out
         (st.events ++
           (((List.range N).flatMap fun i =>
             [.stepStart s.id, .stepRetry s.id (i + 1)]) ++ [.stepStart s.id]))
         (st.calls ++ (List.range (N + 1)).map callF)) := by
  have hmax : retryMax s.guard = N := by simp [retryMax, hg]
  unfold execWithRetry
  rw [hmax, execIter_always_fails router ctx opts s errF callF hck N 0 st hfail]
  rw [failEvents_eq, failCalls_eq]
  simp

/-- Witness for C1: a model step with `max = 2` against a router that always
throws is invoked exactly 3 times, with `step:retry` attempts 1 and 2. -/
theorem c1_retry_bound_witness :
    execWithRetry
      (Router.mk fun rid _ _ => .error (.external rid))
      (Ctx.mk "t" (.str "in") fun _ => none)
      (RunOpts.mk none none none)
      (.model (ModelStep.mk "s1" "agentA" none
        (some (Guard.mk none (some (RetrySpec.mk 2 none)))) none none))
      (RunSt.mk [] [] []) =
      (.error (.external "t:s1:2"),
       RunSt.mk []
         [.stepStart "s1", .stepRetry "s1" 1, .stepStart "s1",
          .stepRetry "s1" 2, .stepStart "s1"]
         [.route "t:s1:0" "agentA" (.str "in"),
          .route "t:s1:1" "agentA" (.str "in"),
          .route "t:s1:2" "agentA" (.str "in")]) := by
  rw [c1_retry_bound
    (Router.mk fun rid _ _ => .error (.external rid))
    (Ctx.mk "t" (.str "in") fun _ => none)
    (RunOpts.mk none none none)
    (.model (ModelStep.mk "s1" "agentA" none
      (some (Guard.mk none (some (RetrySpec.mk 2 none)))) none none))
    2 none none
    (fun k => .external (routeId "t" "s1" k))
    (fun k => .route (routeId "t" "s1" k) "agentA" (.str "in"))
    (RunSt.mk [] [] []) rfl rfl (fun _ => rfl)]
  decide

/-- C5: for any leaf step, equal step id and equal resolved-input values —
even when objects anywhere inside the input list their keys in different
insertion orders — produce the identical `"auto"` cache key (object keys
are sorted recursively before serialization).  The duplicate-free-keys
hypothesis records the JS invariant that an object cannot carry two equal
keys. -/
theorem c5_autoCacheKey_deterministic (s : MT) (i₁ i₂ : JVal)
    (heq : KeyEquiv i₁ i₂) (hnd : nodupKeysB i₁ = true) :
    autoCacheKey s i₁ = autoCacheKey s i₂ := by
  suffices h : jstr (autoSig s i₁) = jstr (autoSig s i₂) by
    unfold autoCacheKey stableStringify
    rw [h]
  cases s with
  | model ms =>
    apply jstr_keyEquiv
    · exact KeyEquiv.obj (List.Perm.refl _)
        (.cons rfl (keyEquivRefl _)
          (.cons rfl (keyEquivRefl _)
            (.cons rfl (keyEquivRefl _)
              (.cons rfl heq .nil))))
    · simp [autoSig, nodupKeysB, nodupKeysBFields, distinctKeys, hnd]
  | tool ts =>
    cases hargs : ts.args with
    | some a => simp [autoSig, hargs]
    | none =>
      apply jstr_keyEquiv
      · simp only [autoSig, hargs, Option.getD_none]
        exact KeyEquiv.obj (List.Perm.refl _)
          (.cons rfl (keyEquivRefl _)
            (.cons rfl (keyEquivRefl _)
              (.cons rfl (keyEquivRefl _)
                (.cons rfl heq .nil))))
      · simp [autoSig, hargs, nodupKeysB, nodupKeysBFields, distinctKeys, hnd]

theorem cacheOp_key_isSome {c : CallRec} (h : c.isCacheOp = true) :
    ∃ k, cacheOpKey c = some k := by
  cases c <;> simp_all [CallRec.isCacheOp, cacheOpKey]

/-- A collaborator dispatch records a route or tool call, never a cache
operation. -/
theorem doExec_call_not_cacheOp (router : Router) (ctx : Ctx)
    (out : List (String × JVal)) (s : MT) (attempt : Nat) (input : JVal)
    (c : CallRec) (h : (doExec router ctx out s attempt input).2 = some c) :
    c.isCacheOp = false := by
  cases s with
  | model ms =>
    simp only [doExec] at h
    cases h
    rfl
  | tool ts =>
    simp only [doExec] at h
    cases htool : ctx.tools ts.toolId with
    | none => rw [htool] at h; cases h
    | some t => rw [htool] at h; cases h; rfl

/-- State bookkeeping of `execMain`: it only appends events and calls, and
every cache operation it performs uses exactly the key it was handed. -/
theorem execMain_spec (router : Router) (ctx : Ctx) (opts : RunOpts) (s : MT)
    (attempt : Nat) (input : JVal) (ck : Option String) (st : RunSt) :
    ∃ ev delta,
      (execMain router ctx opts s attempt input ck st).2 =
        RunSt.mk st.out (st.events ++ ev) (st.calls ++ delta) ∧
      ∀ c ∈ delta, c.isCacheOp = true → cacheOpKey c = ck := by
  rcases hd : doExec router ctx st.out s attempt input with ⟨res, cr⟩
  simp only [execMain, hd]
  cases cr with
  | none =>
    cases res with
    | error e => exact ⟨[], [], by simp [pushCall, pushEvent], by simp⟩
    | ok result =>
      by_cases hv : validate s.guard result = false
      · exact ⟨[], [], by simp [hv, pushCall, pushEvent], by simp⟩
      · cases hck : ck with
        | none =>
          exact ⟨[.stepDone s.id result], [], by simp [hv, pushCall, pushEvent], by simp⟩
        | some key =>
          cases hca : opts.cache with
          | none =>
            exact ⟨[.stepDone s.id result], [], by simp [hv, pushCall, pushEvent], by simp⟩
          | some c =>
            cases hw : c.set key result (defaultTTL opts) with
            | error e =>
              refine ⟨[], [.cacheSet key result (defaultTTL opts)],
                by simp [hv, hw, pushCall, pushEvent], ?_⟩
              intro c hc _
              simp only [List.mem_singleton] at hc
              subst hc
              rfl
            | ok u =>
              refine ⟨[.stepDone s.id result], [.cacheSet key result (defaultTTL opts)],
                by simp [hv, hw, pushCall, pushEvent], ?_⟩
              intro c hc _
              simp only [List.mem_singleton] at hc
              subst hc
              rfl
  | some c₀ =>
    have hc₀ : c₀.isCacheOp = false :=
      doExec_call_not_cacheOp router ctx st.out s attempt input c₀ (by rw [hd])
    cases res with
    | error e => exact ⟨[], [c₀], by simp [pushCall, pushEvent], by simp_all⟩
    | ok result =>
      by_cases hv : validate s.guard result = false
      · exact ⟨[], [c₀], by simp [hv, pushCall, pushEvent], by simp_all⟩
      · cases hck : ck with
        | none =>
          exact ⟨[.stepDone s.id result], [c₀], by simp [hv, pushCall, pushEvent],
            by simp_all⟩
        | some key =>
          cases hca : opts.cache with
          | none =>
            exact ⟨[.stepDone s.id result], [c₀], by simp [hv, pushCall, pushEvent],
              by simp_all⟩
          | some c =>
            cases hw : c.set key result (defaultTTL opts) with
            | error e =>
              refine ⟨[], [c₀, .cacheSet key result (defaultTTL opts)],
                by simp [hv, hw, pushCall, pushEvent], ?_⟩
              intro c hc hcache
              simp only [List.mem_cons, List.mem_singleton, List.not_mem_nil,
                or_false] at hc
              rcases hc with hc | hc
              · subst hc; simp_all
              · subst hc; rfl
            | ok u =>
              refine ⟨[.stepDone s.id result], [c₀, .cacheSet key result (defaultTTL opts)],
                by simp [hv, hw, pushCall, pushEvent], ?_⟩
              intro c hc hcache
              simp only [List.mem_cons, List.mem_singleton, List.not_mem_nil,
                or_false] at hc
              rcases hc with hc | hc
              · subst hc; simp_all
              · subst hc; rfl

/-- State bookkeeping of one `try` iteration: only events and calls are
appended, and every cache operation uses the step's computed cache key. -/
theorem execTryBody_spec (router : Router) (ctx : Ctx) (opts : RunOpts) (s : MT)
    (attempt : Nat) (st : RunSt) :
    ∃ ev delta,
      (execTryBody router ctx opts s attempt st).2 =
        RunSt.mk st.out (st.events ++ ev) (st.calls ++ delta) ∧
      ∀ c ∈ delta, c.isCacheOp = true →
        cacheOpKey c = stepCacheKey s (readInputs ctx st.out s.inputFrom) := by
  cases hck : stepCacheKey s (readInputs ctx st.out s.inputFrom) with
  | none =>
    obtain ⟨ev, delta, hst, hprop⟩ :=
      execMain_spec router ctx opts s attempt
        (readInputs ctx st.out s.inputFrom) none st
    refine ⟨ev, delta, ?_, ?_⟩
    · simpa [execTryBody, hck] using hst
    · intro c hc hcache
      exact hprop c hc hcache
  | some key =>
    cases hca : opts.cache with
    | none =>
      obtain ⟨ev, delta, hst, hprop⟩ :=
        execMain_spec router ctx opts s attempt
          (readInputs ctx st.out s.inputFrom) (some key) st
      refine ⟨ev, delta, ?_, ?_⟩
      · simpa [execTryBody, hck, hca] using hst
      · intro c hc hcache
        exact hprop c hc hcache
    | some c =>
      cases hget : c.get key with
      | error e =>
        refine ⟨[], [.cacheGet key], ?_, ?_⟩
        · simp [execTryBody, hck, hca, hget, pushCall]
        · intro c hc _
          simp only [List.mem_singleton] at hc
          subst hc
          rfl
      | ok hit =>
        by_cases hh : hit ≠ JVal.undef ∧ hit ≠ JVal.null
        · refine ⟨[.stepDone s.id hit], [.cacheGet key], ?_, ?_⟩
          · simp [execTryBody, hck, hca, hget, hh, pushCall, pushEvent]
          · intro c hc _
            simp only [List.mem_singleton] at hc
            subst hc
            rfl
        · obtain ⟨ev, delta, hst, hprop⟩ :=
            execMain_spec router ctx opts s attempt
              (readInputs ctx st.out s.inputFrom) (some key)
              (pushCall st (.cacheGet key))
          refine ⟨ev, .cacheGet key :: delta, ?_, ?_⟩
          · rw [show (RunSt.mk st.out (st.events ++ ev)
                (st.calls ++ (CallRec.cacheGet key :: delta))) =
                RunSt.mk (pushCall st (.cacheGet key)).out
                  ((pushCall st (.cacheGet key)).events ++ ev)
                  ((pushCall st (.cacheGet key)).calls ++ delta) by
              simp [pushCall]]
            rw [← hst]
            simp [execTryBody, hck, hca, hget, hh, pushCall]
          · intro c hc hcache
            rcases List.mem_cons.mp hc with hc | hc
            · subst hc
              rfl
            · exact hprop c hc hcache

/-- State bookkeeping of the whole retry loop: the outputs map is never
written, and every cache operation across all attempts uses the step's
cache key (computed against the unchanging outputs map). -/
theorem execIter_spec (router : Router) (ctx : Ctx) (opts : RunOpts) (s : MT) :
    ∀ (fuel attempt : Nat) (st : RunSt),
    ∃ ev delta,
      (execIter router ctx opts s attempt fuel st).2 =
        RunSt.mk st.out (st.events ++ ev) (st.calls ++ delta) ∧
      ∀ c ∈ delta, c.isCacheOp = true →
        cacheOpKey c = stepCacheKey s (readInputs ctx st.out s.inputFrom) := by
  intro fuel
  induction fuel with
  | zero =>
    intro attempt st
    rw [execIter_eq]
    obtain ⟨ev, delta, hst, hprop⟩ :=
      execTryBody_spec router ctx opts s attempt (pushEvent st (.stepStart s.id))
    rcases hres : execTryBody router ctx opts s attempt (pushEvent st (.stepStart s.id))
      with ⟨r, st'⟩
    rw [hres] at hst
    have hst' : st' = RunSt.mk st.out (st.events ++ (.stepStart s.id :: ev))
        (st.calls ++ delta) := by
      rw [show ((r, st').2 : RunSt) = st' from rfl] at hst
      rw [hst]
      simp [pushEvent]
    cases r with
    | ok v =>
      exact ⟨.stepStart s.id :: ev, delta, hst',
        fun c hc hcache => hprop c hc hcache⟩
    | error e =>
      exact ⟨.stepStart s.id :: ev, delta, hst',
        fun c hc hcache => hprop c hc hcache⟩
  | succ fuel ih =>
    intro attempt st
    rw [execIter_eq]
    obtain ⟨ev, delta, hst, hprop⟩ :=
      execTryBody_spec router ctx opts s attempt (pushEvent st (.stepStart s.id))
    rcases hres : execTryBody router ctx opts s attempt (pushEvent st (.stepStart s.id))
      with ⟨r, st'⟩
    rw [hres] at hst
    have hst' : st' = RunSt.mk st.out (st.events ++ (.stepStart s.id :: ev))
        (st.calls ++ delta) := by
      rw [show ((r, st').2 : RunSt) = st' from rfl] at hst
      rw [hst]
      simp [pushEvent]
    cases r with
    | ok v =>
      exact ⟨.stepStart s.id :: ev, delta, hst',
        fun c hc hcache => hprop c hc hcache⟩
    | error e =>
      obtain ⟨ev₂, delta₂, hst₂, hprop₂⟩ :=
        ih (attempt + 1) (pushEvent st' (.stepRetry s.id (attempt + 1)))
      refine ⟨.stepStart s.id :: (ev ++ (.stepRetry s.id (attempt + 1) :: ev₂)),
        delta ++ delta₂, ?_, ?_⟩
      · rw [hst₂, hst']
        simp [pushEvent]
      · intro c hc hcache
        rcases List.mem_append.mp hc with hc | hc
        · exact hprop c hc hcache
        · have h2 := hprop₂ c hc hcache
          rw [show (pushEvent st' (.stepRetry s.id (attempt + 1))).out = st'.out
            from rfl, hst'] at h2
          exact h2

/-- C3: the cache key discipline of `execWithRetry`.  A leaf step with no
`cacheKey` performs no cache read and no cache write at all, even when a
cache is configured; an explicit string key is used as-is for every cache
operation; `"auto"` uses the key derived from the step and its resolved
input. -/
theorem c3_cacheKey_discipline (router : Router) (ctx : Ctx) (opts : RunOpts)
    (s : MT) (st : RunSt) :
    (s.cacheKey = none →
      ((execWithRetry router ctx opts s st).2.calls.filter CallRec.isCacheOp =
        st.calls.filter CallRec.isCacheOp)) ∧
    (∀ k, s.cacheKey = some (.explicit k) →
      ∀ c ∈ (execWithRetry router ctx opts s st).2.calls, c.isCacheOp = true →
        c ∈ st.calls ∨ cacheOpKey c = some k) ∧
    (s.cacheKey = some .auto →
      ∀ c ∈ (execWithRetry router ctx opts s st).2.calls, c.isCacheOp = true →
        c ∈ st.calls ∨
          cacheOpKey c = some (autoCacheKey s (readInputs ctx st.out s.inputFrom))) := by
  obtain ⟨ev, delta, hst, hprop⟩ :=
    execIter_spec router ctx opts s (retryMax s.guard) 0 st
  refine ⟨?_, ?_, ?_⟩
  · intro hck
    rw [show execWithRetry router ctx opts s st =
      execIter router ctx opts s 0 (retryMax s.guard) st from rfl, hst]
    have hnone : stepCacheKey s (readInputs ctx st.out s.inputFrom) = none :=
      stepCacheKey_none hck _
    have hdelta : delta.filter CallRec.isCacheOp = [] := by
      rw [List.filter_eq_nil_iff]
      intro c hc hcache
      obtain ⟨k, hk⟩ := cacheOp_key_isSome hcache
      have := hprop c hc hcache
      rw [hnone, hk] at this
      cases this
    simp [List.filter_append, hdelta]
  · intro k hck c hc hcache
    rw [show execWithRetry router ctx opts s st =
      execIter router ctx opts s 0 (retryMax s.guard) st from rfl, hst] at hc
    simp only at hc
    rcases List.mem_append.mp hc with hc | hc
    · exact Or.inl hc
    · right
      have := hprop c hc hcache
      rw [this]
      unfold stepCacheKey
      rw [hck]
  · intro hck c hc hcache
    rw [show execWithRetry router ctx opts s st =
      execIter router ctx opts s 0 (retryMax s.guard) st from rfl, hst] at hc
    simp only at hc
    rcases List.mem_append.mp hc with hc | hc
    · exact Or.inl hc
    · right
      have := hprop c hc hcache
      rw [this]
      unfold stepCacheKey
      rw [hck]

/-- Witness for C3: a concrete uncached tool step run against a configured
cache performs no cache operation (while the collaborator call is logged). -/
theorem c3_cacheKey_discipline_witness :
    (MT.tool (ToolStep.mk "s1" "echo" none none none none none)).cacheKey = none ∧
    ((execWithRetry (Router.mk fun _ _ _ => .ok .null)
      (Ctx.mk "t" (.num 7) fun tid =>
        if tid = "echo" then some (fun a => .ok a) else none)
      (RunOpts.mk none
        (some (StepCache.mk (fun _ => .ok .null) (fun _ _ _ => .ok ()))) none)
      (.tool (ToolStep.mk "s1" "echo" none none none none none))
      (RunSt.mk [] [] [])).2.calls.filter CallRec.isCacheOp =
      (RunSt.mk [] [] [] : RunSt).calls.filter CallRec.isCacheOp) := by
  refine ⟨rfl, ?_⟩
  exact (c3_cacheKey_discipline (Router.mk fun _ _ _ => .ok .null)
    (Ctx.mk "t" (.num 7) fun tid =>
      if tid = "echo" then some (fun a => .ok a) else none)
    (RunOpts.mk none
      (some (StepCache.mk (fun _ => .ok .null) (fun _ _ _ => .ok ()))) none)
    (.tool (ToolStep.mk "s1" "echo" none none none none none))
    (RunSt.mk [] [] [])).1 rfl

/-- C2: dispatching a `map` step whose `itemsFrom` output is not an array
fails the step with the plan-invalid runtime error
`map.itemsFrom '...' did not yield an array`, leaving the state untouched —
in particular no child is run, no event is emitted, and nothing is stored
(it does not succeed with an empty result). -/
theorem c2_map_items_not_array (router : Router) (ctx : Ctx) (opts : RunOpts)
    (steps : List PlanStep) (ms : MapStep) (st : RunSt)
    (h : isArrB (mapGet st.out ms.itemsFrom) = false) :
    runStep router ctx opts steps (.mapStep ms) st =
      (.error (.mapItemsNotArray ms.itemsFrom), st) := by
  show runMapStep router ctx ms st = _
  unfold runMapStep
  cases hit : mapGet st.out ms.itemsFrom <;> simp_all [isArrB]

/-- Witness for C2: a map step over a step output that is an object (not an
array) fails with the plan-invalid error and an unchanged state. -/
theorem c2_map_items_not_array_witness :
    isArrB (mapGet [("src", .obj [("items", .arr [.num 1])])] "src") = false ∧
    runStep (Router.mk fun _ _ _ => .ok .null)
      (Ctx.mk "t" .null fun _ => none) (RunOpts.mk none none none) []
      (.mapStep (MapStep.mk "m" "src"
        (.tool "echo" none none none none none) none (some true)))
      (RunSt.mk [("src", .obj [("items", .arr [.num 1])])] [.planEv] []) =
      (.error (.mapItemsNotArray "src"),
       RunSt.mk [("src", .obj [("items", .arr [.num 1])])] [.planEv] []) := by
  refine ⟨rfl, ?_⟩
  exact c2_map_items_not_array (Router.mk fun _ _ _ => .ok .null)
    (Ctx.mk "t" .null fun _ => none) (RunOpts.mk none none none) []
    (MapStep.mk "m" "src" (.tool "echo" none none none none none) none (some true))
    (RunSt.mk [("src", .obj [("items", .arr [.num 1])])] [.planEv] []) rfl

/-- C6 counterexample: a cached leaf step (explicit key, no retry budget)
whose cache `get` always throws does *not* degrade to a cache miss — the
step fails with the cache's error and the collaborator (which would have
succeeded: `echo` is available and returns its argument) is never invoked.
This refutes the claim that a cache `get` failure is treated as a miss and
the step can still succeed. -/
theorem c6_cache_get_error_counterexample :
    execWithRetry
      (Router.mk fun _ _ _ => .ok .null)
      (Ctx.mk "t" (.num 7) fun tid =>
        if tid = "echo" then some (fun a => .ok a) else none)
      (RunOpts.mk none
        (some (StepCache.mk (fun _ => .error (.external "cache down"))
          (fun _ _ _ => .ok ()))) none)
      (.tool (ToolStep.mk "s1" "echo" none none none (some (.explicit "K")) none))
      (RunSt.mk [] [] []) =
      (.error (.external "cache down"),
       RunSt.mk [] [.stepStart "s1"] [.cacheGet "K"]) := rfl

/-- C6 amended: a failure thrown by the cache is handled by the step's
generic `catch` like any other step error, not special-cased.  With no
retry budget: a `get` failure fails the step with the cache's error and the
collaborator is never invoked on that attempt (first conjunct, where the
call log gains only the `cacheGet`); a `set` failure after a successful,
schema-valid execution fails the step and discards the computed result
(second conjunct). -/
theorem c6_amended_cache_errors :
    (∀ (router : Router) (ctx : Ctx) (opts : RunOpts) (s : MT) (st : RunSt)
      (c : StepCache) (key : String) (e : JErr),
      retryMax s.guard = 0 →
      opts.cache = some c →
      stepCacheKey s (readInputs ctx st.out s.inputFrom) = some key →
      c.get key = .error e →
      execWithRetry router ctx opts s st =
        (.error e,
         RunSt.mk st.out (st.events ++ [.stepStart s.id])
           (st.calls ++ [.cacheGet key]))) ∧
    (∀ (router : Router) (ctx : Ctx) (opts : RunOpts) (s : MT) (st : RunSt)
      (c : StepCache) (key : String) (e : JErr) (v : JVal) (cr : CallRec),
      retryMax s.guard = 0 →
      opts.cache = some c →
      stepCacheKey s (readInputs ctx st.out s.inputFrom) = some key →
      c.get key = .ok .null →
      doExec router ctx st.out s 0 (readInputs ctx st.out s.inputFrom) = (.ok v, some cr) →
      validate s.guard v = true →
      c.set key v (defaultTTL opts) = .error e →
      execWithRetry router ctx opts s st =
        (.error e,
         RunSt.mk st.out (st.events ++ [.stepStart s.id])
           (st.calls ++ [.cacheGet key, cr, .cacheSet key v (defaultTTL opts)]))) := by
  constructor
  · intro router ctx opts s st c key e hmax hca hkey hget
    unfold execWithRetry
    rw [hmax, execIter_eq]
    simp only [execTryBody, pushEvent_out, hkey, hca, hget]
    simp [pushEvent, pushCall]
  · intro router ctx opts s st c key e v cr hmax hca hkey hget hd hvalid hset
    unfold execWithRetry
    rw [hmax, execIter_eq]
    simp only [execTryBody, pushEvent_out, hkey, hca, hget]
    simp only [ne_eq, not_true_eq_false, and_false, if_false, reduceIte]
    simp only [execMain, pushEvent_out, pushCall_out, hd, hvalid, hca, hset]
    simp [pushEvent, pushCall]

/-- Witness for the amended C6 at the counterexample's environment (first
conjunct) and at a `set`-failing cache (second conjunct). -/
theorem c6_amended_cache_errors_witness :
    execWithRetry
      (Router.mk fun _ _ _ => .ok .null)
      (Ctx.mk "t" (.num 7) fun tid =>
        if tid = "echo" then some (fun a => .ok a) else none)
      (RunOpts.mk none
        (some (StepCache.mk (fun _ => .ok .null)
          (fun _ _ _ => .error (.external "disk full")))) none)
      (.tool (ToolStep.mk "s1" "echo" none none none (some (.explicit "K")) none))
      (RunSt.mk [] [] []) =
      (.error (.external "disk full"),
       RunSt.mk [] [.stepStart "s1"]
         [.cacheGet "K", .toolCall "echo" (.num 7), .cacheSet "K" (.num 7) 300]) := by
  exact c6_amended_cache_errors.2
    (Router.mk fun _ _ _ => .ok .null)
    (Ctx.mk "t" (.num 7) fun tid =>
      if tid = "echo" then some (fun a => .ok a) else none)
    (RunOpts.mk none
      (some (StepCache.mk (fun _ => .ok .null)
        (fun _ _ _ => .error (.external "disk full")))) none)
    (.tool (ToolStep.mk "s1" "echo" none none none (some (.explicit "K")) none))
    (RunSt.mk [] [] [])
    (StepCache.mk (fun _ => .ok .null) (fun _ _ _ => .error (.external "disk full")))
    "K" (.external "disk full") (.num 7) (.toolCall "echo" (.num 7))
    rfl rfl rfl rfl rfl rfl rfl

/-- A map child's direct invocation records a route or tool call, never a
cache operation. -/
theorem mapChildCall_not_cacheOp (router : Router) (ctx : Ctx) (ms : MapStep)
    (out : List (String × JVal)) (item : JVal) (idx : Nat) (cr : CallRec)
    (h : (mapChildCall router ctx ms out item idx).2 = some cr) :
    cr.isCacheOp = false := by
  cases hch : ms.child with
  | model agent i g ck t =>
    simp only [mapChildCall, hch] at h
    cases h
    rfl
  | tool toolId cargs i g ck t =>
    simp only [mapChildCall, hch] at h
    cases htool : ctx.tools toolId with
    | none => rw [htool] at h; cases h
    | some tl => rw [htool] at h; cases h; rfl

/-- C7 counterexample: in `runPlan`'s map dispatch a per-element child is
invoked directly, bypassing the guard/retry/cache wrapper.  Concretely: a
map child with `guard.retry.max = 1` and `cacheKey: "auto"`, running
against a configured cache and a tool that always throws, produces *no*
`step:start`/`step:done`/`step:retry` for the child id `m:0`, *no* cache
read, and exactly one tool invocation (no retry) — the child's error then
rejects the whole map step and the plan.  This refutes the claim that map
children run under the same wrapper as top-level leaf steps. -/
theorem c7_map_child_wrapper_counterexample :
    runPlan
      (Router.mk fun _ _ _ => .ok .null)
      (Ctx.mk "t" .null fun tid =>
        if tid = "mk" then some (fun _ => .ok (.arr [.num 1]))
        else if tid = "boom" then some (fun _ => .error (.external "boom"))
        else none)
      (RunOpts.mk none
        (some (StepCache.mk (fun _ => .ok .null) (fun _ _ _ => .ok ()))) none)
      (Plan.mk "p"
        [.tool (ToolStep.mk "src" "mk" none none none none none),
         .mapStep (MapStep.mk "m" "src"
           (.tool "boom" none none
             (some (Guard.mk none (some (RetrySpec.mk 1 none)))) (some .auto) none)
           none (some true))]
        ["m"]) =
      (.error (.external "boom"),
       RunSt.mk [("src", .arr [.num 1])]
         [.planEv, .stepStart "src", .stepDone "src" (.arr [.num 1])]
         [.toolCall "mk" .null, .toolCall "boom" (.num 1)]) := rfl

/-- C7 amended: the map dispatch invokes each element's child directly,
without the guard/retry/cache wrapper: across the whole per-item loop no
event is emitted, the outputs map is untouched, no cache operation is
performed (regardless of the child's `cacheKey` and the configured cache),
and at most one collaborator call is made per element (so `guard.retry`
buys no extra attempts); the loop still stops at the first failing
element, whose error rejects the whole map step. -/
theorem c7_amended_map_children_unwrapped (router : Router) (ctx : Ctx)
    (ms : MapStep) :
    ∀ (items : List JVal) (idx : Nat) (st : RunSt),
      (execMapItems router ctx ms items idx st).2.events = st.events ∧
      (execMapItems router ctx ms items idx st).2.out = st.out ∧
      ((execMapItems router ctx ms items idx st).2.calls.filter CallRec.isCacheOp =
        st.calls.filter CallRec.isCacheOp) ∧
      (execMapItems router ctx ms items idx st).2.calls.length ≤
        st.calls.length + items.length := by
  intro items
  induction items with
  | nil => intro idx st; exact ⟨rfl, rfl, rfl, by simp [execMapItems]⟩
  | cons item rest ih =>
    intro idx st
    simp only [execMapItems]
    rcases hco : mapChildCall router ctx ms st.out item idx with ⟨res, cro⟩
    cases cro with
    | none =>
      cases res with
      | error e =>
        exact ⟨rfl, rfl, rfl, by simp⟩
      | ok r =>
        obtain ⟨h1, h2, h3, h4⟩ := ih (idx + 1) st
        rcases hrec : execMapItems router ctx ms rest (idx + 1) st with ⟨res', st'⟩
        rw [hrec] at h1 h2 h3 h4
        cases res' with
        | ok results => exact ⟨h1, h2, h3, by simp at h4 ⊢; omega⟩
        | error e => exact ⟨h1, h2, h3, by simp at h4 ⊢; omega⟩
    | some cr =>
      have hcr : cr.isCacheOp = false :=
        mapChildCall_not_cacheOp router ctx ms st.out item idx cr (by rw [hco])
      have hst₁ : (pushCall st cr).calls.filter CallRec.isCacheOp =
          st.calls.filter CallRec.isCacheOp := by
        simp [pushCall, List.filter_append, hcr]
      cases res with
      | error e =>
        refine ⟨rfl, rfl, hst₁, ?_⟩
        simp [pushCall]
      | ok r =>
        obtain ⟨h1, h2, h3, h4⟩ := ih (idx + 1) (pushCall st cr)
        rcases hrec : execMapItems router ctx ms rest (idx + 1) (pushCall st cr)
          with ⟨res', st'⟩
        rw [hrec] at h1 h2 h3 h4
        rw [hst₁] at h3
        have h2' : st'.out = st.out := h2
        have h1' : st'.events = st.events := h1
        have h4' : st'.calls.length ≤ st.calls.length + (rest.length + 1) := by
          simp [pushCall] at h4
          omega
        cases res' with
        | ok results => exact ⟨h1', h2', h3, by simpa using h4'⟩
        | error e => exact ⟨h1', h2', h3, by simpa using h4'⟩

/-- `find?` returns the first element satisfying the predicate when
everything before it fails the predicate. -/
theorem find?_append_first {α : Type} (p : α → Bool) (pre post : List α) (b : α)
    (hpre : ∀ x ∈ pre, p x = false) (hb : p b = true) :
    (pre ++ b :: post).find? p = some b := by
  induction pre with
  | nil => simp [List.find?_cons, hb]
  | cons x xs ih =>
    have hx : p x = false := hpre x (by simp)
    simp only [List.cons_append, List.find?_cons, hx]
    exact ih fun y hy => hpre y (by simp [hy])

/-- C8: branch dispatch.  (i) Conditions are evaluated in declared order
and the first matching branch's `then` sequence is executed sequentially
(via `runSeq`); (ii) when no condition matches, the `else` sequence is
executed sequentially; (iii) when no condition matches and `else` is empty
or absent the branch step is a no-op — no steps run and no error is
raised; (iv) a matching branch whose `then` list is empty runs nothing,
even when a non-empty `else` is present — it does not fall back. -/
theorem c8_branch_dispatch (router : Router) (ctx : Ctx) (opts : RunOpts)
    (steps : List PlanStep) (id : String) (st : RunSt) :
    (∀ (pre post : List BranchArm) (b : BranchArm) (elseSeq : Option (List String)),
      (∀ b' ∈ pre, evalCondition st.out b'.when = false) →
      evalCondition st.out b.when = true →
      runStep router ctx opts steps (.branch id (pre ++ b :: post) elseSeq) st =
        runSeq router ctx opts steps b.then_ st) ∧
    (∀ (branches : List BranchArm) (elseSeq : Option (List String)),
      (∀ b ∈ branches, evalCondition st.out b.when = false) →
      runStep router ctx opts steps (.branch id branches elseSeq) st =
        runSeq router ctx opts steps (elseSeq.getD []) st) ∧
    (∀ (branches : List BranchArm) (elseSeq : Option (List String)),
      (∀ b ∈ branches, evalCondition st.out b.when = false) →
      (elseSeq = none ∨ elseSeq = some []) →
      runStep router ctx opts steps (.branch id branches elseSeq) st = (.ok (), st)) ∧
    (∀ (pre post : List BranchArm) (b : BranchArm) (elseSeq : Option (List String)),
      (∀ b' ∈ pre, evalCondition st.out b'.when = false) →
      evalCondition st.out b.when = true → b.then_ = [] →
      runStep router ctx opts steps (.branch id (pre ++ b :: post) elseSeq) st =
        (.ok (), st)) := by
  have hfirst : ∀ (pre post : List BranchArm) (b : BranchArm)
      (elseSeq : Option (List String)),
      (∀ b' ∈ pre, evalCondition st.out b'.when = false) →
      evalCondition st.out b.when = true →
      runStep router ctx opts steps (.branch id (pre ++ b :: post) elseSeq) st =
        runSeq router ctx opts steps b.then_ st := by
    intro pre post b elseSeq hpre hb
    simp only [runStep]
    rw [find?_append_first (fun arm => evalCondition st.out arm.when) pre post b hpre hb]
  have hnone : ∀ (branches : List BranchArm) (elseSeq : Option (List String)),
      (∀ b ∈ branches, evalCondition st.out b.when = false) →
      runStep router ctx opts steps (.branch id branches elseSeq) st =
        runSeq router ctx opts steps (elseSeq.getD []) st := by
    intro branches elseSeq hall
    simp only [runStep]
    rw [List.find?_eq_none.mpr fun x hx => by simp [hall x hx]]
  refine ⟨hfirst, hnone, ?_, ?_⟩
  · intro branches elseSeq hall hempty
    rw [hnone branches elseSeq hall]
    rcases hempty with h | h <;> subst h <;> rfl
  · intro pre post b elseSeq hpre hb hthen
    rw [hfirst pre post b elseSeq hpre hb, hthen]
    rfl

/-- Witness for C8 mirroring the spec's example: with `outputs.x = 10`, the
branch `when {gt: {left: {var:"x"}, right: {value:5}}}` matches, so its
`then` runs and `else` does not; and a matching branch with an empty `then`
is a no-op even though a non-empty `else` is present. -/
theorem c8_branch_dispatch_witness :
    evalCondition [("x", .num 10)]
      (.gt (.var "x") (.value (.num 5))) = true ∧
    runStep (Router.mk fun _ _ _ => .ok .null)
      (Ctx.mk "t" .null fun _ => none) (RunOpts.mk none none none) []
      (.branch "br"
        [BranchArm.mk (.gt (.var "x") (.value (.num 5))) ["hi"]]
        (some ["lo"]))
      (RunSt.mk [("x", .num 10)] [] []) =
      runSeq (Router.mk fun _ _ _ => .ok .null)
        (Ctx.mk "t" .null fun _ => none) (RunOpts.mk none none none) []
        ["hi"] (RunSt.mk [("x", .num 10)] [] []) ∧
    runStep (Router.mk fun _ _ _ => .ok .null)
      (Ctx.mk "t" .null fun _ => none) (RunOpts.mk none none none) []
      (.branch "br"
        [BranchArm.mk (.gt (.var "x") (.value (.num 5))) []]
        (some ["lo"]))
      (RunSt.mk [("x", .num 10)] [] []) =
      (.ok (), RunSt.mk [("x", .num 10)] [] []) := by
  refine ⟨by decide, ?_, ?_⟩
  · exact (c8_branch_dispatch (Router.mk fun _ _ _ => .ok .null)
      (Ctx.mk "t" .null fun _ => none) (RunOpts.mk none none none) []
      "br" (RunSt.mk [("x", .num 10)] [] [])).1
      [] [] (BranchArm.mk (.gt (.var "x") (.value (.num 5))) ["hi"])
      (some ["lo"]) (by intro b' hb'; cases hb') (by decide)
  · exact (c8_branch_dispatch (Router.mk fun _ _ _ => .ok .null)
      (Ctx.mk "t" .null fun _ => none) (RunOpts.mk none none none) []
      "br" (RunSt.mk [("x", .num 10)] [] [])).2.2.2
      [] [] (BranchArm.mk (.gt (.var "x") (.value (.num 5))) [])
      (some ["lo"]) (by intro b' hb'; cases hb') (by decide) rfl

theorem mem_mapSet_keys (o : List (String × JVal)) (k : String) (v : JVal) :
    ∀ k', k' ∈ (mapSet o k v).map Prod.fst ↔ k' ∈ o.map Prod.fst ∨ k' = k := by
  induction o with
  | nil => intro k'; simp [mapSet]
  | cons p rest ih =>
    intro k'
    obtain ⟨k₀, v₀⟩ := p
    by_cases h : k₀ = k
    · subst h
      simp [mapSet]
      tauto
    · simp only [mapSet, if_neg h, List.map_cons, List.mem_cons]
      rw [ih k']
      tauto

theorem mapGet_mapSet_self (o : List (String × JVal)) (k : String) (v : JVal) :
    mapGet (mapSet o k v) k = v := by
  induction o with
  | nil => simp [mapSet, mapGet]
  | cons p rest ih =>
    obtain ⟨k₀, v₀⟩ := p
    by_cases h : k₀ = k
    · subst h
      simp [mapSet, mapGet]
    · simp [mapSet, mapGet, h, ih]

theorem mapGet_mapSet_other (o : List (String × JVal)) (k k' : String) (v : JVal)
    (h : k ≠ k') : mapGet (mapSet o k v) k' = mapGet o k' := by
  induction o with
  | nil => simp [mapSet, mapGet, h]
  | cons p rest ih =>
    obtain ⟨k₀, v₀⟩ := p
    by_cases h₀ : k₀ = k
    · subst h₀
      simp [mapSet, mapGet, h]
    · simp only [mapSet, if_neg h₀, mapGet]
      by_cases h₁ : k₀ = k'
      · simp [h₁]
      · simp [h₁, ih]

theorem mapGet_eq_undef_of_not_mem (o : List (String × JVal)) (k : String)
    (h : k ∉ o.map Prod.fst) : mapGet o k = .undef := by
  induction o with
  | nil => rfl
  | cons p rest ih =>
    obtain ⟨k₀, v₀⟩ := p
    simp only [List.map_cons, List.mem_cons] at h
    push_neg at h
    have hne : ¬(k₀ = k) := fun hh => h.1 hh.symm
    simp only [mapGet, if_neg hne, ih h.2]

/-- Keys of the projection fold: exactly the seed's keys plus the processed
output ids. -/
theorem projectOutputs_keys (out : List (String × JVal)) :
    ∀ (ids : List String) (acc : List (String × JVal)) (k : String),
    k ∈ ((ids.foldl (fun a i => objAssign a i (mapGet out i)) acc).map Prod.fst) ↔
      k ∈ acc.map Prod.fst ∨ k ∈ ids := by
  intro ids
  induction ids with
  | nil => intro acc k; simp
  | cons i rest ih =>
    intro acc k
    simp only [List.foldl_cons, List.mem_cons]
    rw [ih (objAssign acc i (mapGet out i)) k, objAssign, mem_mapSet_keys]
    tauto

/-- Values of the projection fold: each projected id reads exactly its
value in the outputs map (so an id whose step never ran reads `undefined`),
and unprocessed keys keep their seed value. -/
theorem projectOutputs_get (out : List (String × JVal)) :
    ∀ (ids : List String) (acc : List (String × JVal)) (k : String),
    mapGet (ids.foldl (fun a i => objAssign a i (mapGet out i)) acc) k =
      if k ∈ ids then mapGet out k else mapGet acc k := by
  intro ids
  induction ids with
  | nil => intro acc k; simp
  | cons i rest ih =>
    intro acc k
    simp only [List.foldl_cons, List.mem_cons]
    rw [ih (objAssign acc i (mapGet out i)) k]
    by_cases hr : k ∈ rest
    · simp [hr]
    · by_cases hk : k = i
      · subst hk
        simp [hr, objAssign, mapGet_mapSet_self]
      · simp only [if_neg hr, if_neg (by tauto : ¬(k = i ∨ k ∈ rest))]
        exact mapGet_mapSet_other acc i k (mapGet out i) fun h => hk h.symm

/-- C9: on a successful run the returned outputs object has exactly the
keys declared in `Plan.outputs` (no key for any other step that ran); each
declared key carries the final outputs-map value of that step, so a
declared output whose step never ran reads `undefined` instead of raising;
and the `done` event carries this same projected map as the final event. -/
theorem c9_output_projection (router : Router) (ctx : Ctx) (opts : RunOpts)
    (plan : Plan) (outs : List (String × JVal)) (stF : RunSt)
    (h : runPlan router ctx opts plan = (.ok outs, stF)) :
    (∀ k, k ∈ outs.map Prod.fst ↔ k ∈ plan.outputs) ∧
    (∀ k ∈ plan.outputs, mapGet outs k = mapGet stF.out k) ∧
    (∀ k ∈ plan.outputs, k ∉ stF.out.map Prod.fst → mapGet outs k = .undef) ∧
    stF.events.getLast? = some (.doneEv outs) := by
  simp only [runPlan] at h
  rcases hrun : runSteps router ctx opts plan.steps plan.steps
    (RunSt.mk [] [Event.planEv] []) with ⟨r, st'⟩
  rw [hrun] at h
  cases r with
  | error e => simp at h
  | ok u =>
    simp only [Prod.mk.injEq] at h
    obtain ⟨houts, hstF⟩ := h
    have houts' : outs = projectOutputs plan.outputs st'.out := by
      cases houts
      rfl
    have hout : stF.out = st'.out := by rw [← hstF]; rfl
    have hev : stF.events = st'.events ++ [.doneEv outs] := by
      rw [← hstF]
      cases houts
      rfl
    refine ⟨?_, ?_, ?_, ?_⟩
    · intro k
      rw [houts', projectOutputs, projectOutputs_keys]
      simp
    · intro k hk
      rw [houts', hout, projectOutputs, projectOutputs_get]
      simp [hk]
    · intro k hk habs
      rw [houts', projectOutputs, projectOutputs_get]
      rw [hout] at habs
      simp [hk, mapGet_eq_undef_of_not_mem st'.out k habs]
    · rw [hev]
      simp

/-- Witness for C9: a two-step plan projecting `["summary", "ghost"]`
returns exactly those keys — `other` ran but is absent, `ghost` never ran
and reads `undefined`. -/
theorem c9_output_projection_witness :
    runPlan (Router.mk fun _ _ _ => .ok (.str "S"))
      (Ctx.mk "t" .null fun _ => none) (RunOpts.mk none none none)
      (Plan.mk "p"
        [.model (ModelStep.mk "summary" "a" none none none none),
         .model (ModelStep.mk "other" "a" none none none none)]
        ["summary", "ghost"]) =
      (.ok [("summary", .str "S"), ("ghost", .undef)],
       RunSt.mk [("summary", .str "S"), ("other", .str "S")]
         [.planEv, .stepStart "summary", .stepDone "summary" (.str "S"),
          .stepStart "other", .stepDone "other" (.str "S"),
          .doneEv [("summary", .str "S"), ("ghost", .undef)]]
         [.route "t:summary:0" "a" .null, .route "t:other:0" "a" .null]) ∧
    ("other" ∈ ([("summary", JVal.str "S"), ("ghost", JVal.undef)].map Prod.fst) ↔
      "other" ∈ ["summary", "ghost"]) ∧
    mapGet [("summary", JVal.str "S"), ("ghost", JVal.undef)] "ghost" = .undef := by
  refine ⟨rfl, ?_, ?_⟩
  · exact (c9_output_projection (Router.mk fun _ _ _ => .ok (.str "S"))
      (Ctx.mk "t" .null fun _ => none) (RunOpts.mk none none none)
      (Plan.mk "p"
        [.model (ModelStep.mk "summary" "a" none none none none),
         .model (ModelStep.mk "other" "a" none none none none)]
        ["summary", "ghost"])
      [("summary", .str "S"), ("ghost", .undef)]
      (RunSt.mk [("summary", .str "S"), ("other", .str "S")]
        [.planEv, .stepStart "summary", .stepDone "summary" (.str "S"),
         .stepStart "other", .stepDone "other" (.str "S"),
         .doneEv [("summary", .str "S"), ("ghost", .undef)]]
        [.route "t:summary:0" "a" .null, .route "t:other:0" "a" .null])
      rfl).1 "other"
  · exact ((c9_output_projection (Router.mk fun _ _ _ => .ok (.str "S"))
      (Ctx.mk "t" .null fun _ => none) (RunOpts.mk none none none)
      (Plan.mk "p"
        [.model (ModelStep.mk "summary" "a" none none none none),
         .model (ModelStep.mk "other" "a" none none none none)]
        ["summary", "ghost"])
      [("summary", .str "S"), ("ghost", .undef)]
      (RunSt.mk [("summary", .str "S"), ("other", .str "S")]
        [.planEv, .stepStart "summary", .stepDone "summary" (.str "S"),
         .stepStart "other", .stepDone "other" (.str "S"),
         .doneEv [("summary", .str "S"), ("ghost", .undef)]]
        [.route "t:summary:0" "a" .null, .route "t:other:0" "a" .null])
      rfl).2.1 "ghost" (by decide)).trans (by decide)

/-- One-step unfolding of `runsplit`. -/
theorem runsplit_cons (c : Char) (cs : List Char) :
    runsplit (c :: cs) =
      match runsplit cs with
      | [] => [[c]]
      | [] :: rs => [c] :: rs
      | (d :: r) :: rs =>
        if isWordChar c = isWordChar d then (c :: d :: r) :: rs
        else [c] :: (d :: r) :: rs := by
  rw [runsplit]

/-- The first run produced by `runsplit` starts with the input's first
character. -/
theorem runsplit_cons_head (c : Char) (cs : List Char) :
    ∃ t rs, runsplit (c :: cs) = (c :: t) :: rs := by
  cases hr : runsplit cs with
  | nil => exact ⟨[], [], by simp [runsplit, hr]⟩
  | cons r rs =>
    cases r with
    | nil => exact ⟨[], rs, by simp [runsplit, hr]⟩
    | cons d r' =>
      by_cases hw : isWordChar c = isWordChar d
      · exact ⟨d :: r', rs, by simp [runsplit, hr, hw]⟩
      · exact ⟨[], (d :: r') :: rs, by simp [runsplit, hr, hw]⟩

/-- Splitting off a maximal homogeneous run: if every character of `s` has
word-ness `w` and the remainder starts with a character of the other
word-ness (or is empty), the run `s` is the first run of `s ++ cs`. -/
theorem runsplit_run_append (w : Bool) :
    ∀ (s cs : List Char), s ≠ [] → (∀ a ∈ s, isWordChar a = w) →
    (cs = [] ∨ ∃ d cs', cs = d :: cs' ∧ isWordChar d ≠ w) →
    runsplit (s ++ cs) = s :: runsplit cs := by
  intro s
  induction s with
  | nil => intro cs h; cases h rfl
  | cons a s' ih =>
    intro cs _ hall hcs
    cases s' with
    | nil =>
      rcases hcs with hnil | ⟨d, cs', hcons, hd⟩
      · subst hnil
        simp [runsplit]
      · subst hcons
        obtain ⟨t, rs, hrt⟩ := runsplit_cons_head d cs'
        have hne : ¬(isWordChar a = isWordChar d) := by
          rw [hall a (by simp)]
          exact fun hh => hd hh.symm
        rw [List.singleton_append, runsplit_cons, hrt]
        simp [hne]
    | cons b s'' =>
      have hrec : runsplit ((b :: s'') ++ cs) = (b :: s'') :: runsplit cs :=
        ih cs (by simp) (fun x hx => hall x (by simp [hx])) hcs
      have hab : isWordChar a = isWordChar b := by
        rw [hall a (by simp), hall b (by simp)]
      simp only [List.cons_append] at hrec ⊢
      rw [runsplit_cons, hrec]
      simp [hab]

theorem joinDots_head {segs : List (List Char)} {s : List Char}
    (hw : ∀ x ∈ s :: segs, wordySeg x = true) :
    ∃ d cs', joinDots (s :: segs) = d :: cs' ∧ isWordChar d = true := by
  have hs := hw s (by simp)
  cases s with
  | nil => simp [wordySeg] at hs
  | cons d s' =>
    refine ⟨d, ?_, ?_, ?_⟩
    · exact (joinDots ((d :: s') :: segs)).tail
    · cases segs <;> simp [joinDots]
    · simp only [wordySeg, Bool.and_eq_true, List.all_cons] at hs
      exact hs.2.1

/-- `runsplit` of a dotted join of wordy segments is exactly the dotted
interleaving of the segments. -/
theorem runsplit_joinDots :
    ∀ segs : List (List Char), segs ≠ [] → (∀ s ∈ segs, wordySeg s = true) →
    runsplit (joinDots segs) = interleaveDots segs := by
  intro segs
  induction segs with
  | nil => intro h; cases h rfl
  | cons s rest ih =>
    intro _ hw
    have hs := hw s (by simp)
    have hsne : s ≠ [] := by
      cases s
      · simp [wordySeg] at hs
      · simp
    have hsall : ∀ a ∈ s, isWordChar a = true := by
      intro a ha
      simp only [wordySeg, Bool.and_eq_true, List.all_eq_true] at hs
      exact hs.2 a ha
    cases rest with
    | nil =>
      show runsplit (joinDots [s]) = [s]
      rw [show joinDots [s] = s ++ [] by simp [joinDots]]
      rw [runsplit_run_append true s [] hsne hsall (Or.inl rfl)]
      rfl
    | cons r₂ rest' =>
      have hjoin : joinDots (s :: r₂ :: rest') = s ++ '.' :: joinDots (r₂ :: rest') := by
        simp [joinDots]
      rw [hjoin]
      obtain ⟨d, cs', hdc, hdw⟩ := @joinDots_head rest' r₂
        fun x hx => hw x (by simp at hx ⊢; tauto)
      rw [runsplit_run_append true s ('.' :: joinDots (r₂ :: rest')) hsne hsall
        (Or.inr ⟨'.', joinDots (r₂ :: rest'), rfl, by decide⟩)]
      rw [show ('.' :: joinDots (r₂ :: rest')) = ['.'] ++ joinDots (r₂ :: rest')
        from rfl]
      rw [runsplit_run_append false ['.'] (joinDots (r₂ :: rest')) (by simp)
        (by intro a ha; simp at ha; subst ha; decide)
        (Or.inr ⟨d, cs', hdc, by simp [hdw]⟩)]
      rw [ih (by simp) fun x hx => hw x (by simp [hx])]
      rfl

theorem flatten_interleaveDots :
    ∀ segs : List (List Char),
    (interleaveDots segs).flatten = joinDots segs := by
  intro segs
  induction segs with
  | nil => rfl
  | cons s rest ih =>
    cases rest with
    | nil => simp [interleaveDots, joinDots]
    | cons r₂ rest' =>
      rw [show interleaveDots (s :: r₂ :: rest') =
        s :: ['.'] :: interleaveDots (r₂ :: rest') from rfl]
      rw [show joinDots (s :: r₂ :: rest') = s ++ '.' :: joinDots (r₂ :: rest')
        from rfl]
      simp [ih]

theorem map_interleaveDots (f : List Char → List Char) (hf : f ['.'] = ['.']) :
    ∀ segs : List (List Char),
    (interleaveDots segs).map f = interleaveDots (segs.map f) := by
  intro segs
  induction segs with
  | nil => rfl
  | cons s rest ih =>
    cases rest with
    | nil => simp [interleaveDots]
    | cons r₂ rest' =>
      have h1 : interleaveDots (s :: r₂ :: rest') =
          s :: ['.'] :: interleaveDots (r₂ :: rest') := rfl
      have h2 : interleaveDots ((s :: r₂ :: rest').map f) =
          f s :: ['.'] :: interleaveDots ((r₂ :: rest').map f) := rfl
      rw [h1, h2, List.map_cons, List.map_cons, hf, ih]

/-- A word-boundary replacement of pattern `w` on a dotted join of wordy
segments substitutes exactly the segments equal to `w`. -/
theorem replaceWordRuns_joinDots (w rep : List Char)
    (hw : wordySeg w = true) :
    ∀ segs : List (List Char), segs ≠ [] → (∀ s ∈ segs, wordySeg s = true) →
    replaceWordRuns w rep (joinDots segs) =
      joinDots (segs.map (synonymF w rep)) := by
  intro segs hne hall
  unfold replaceWordRuns
  rw [runsplit_joinDots segs hne hall]
  have hdot : (fun r => if r = w then rep else r) ['.'] = ['.'] := by
    simp only
    rw [if_neg]
    intro hcontra
    rw [← hcontra] at hw
    simp [wordySeg, isWordChar] at hw
  rw [map_interleaveDots (fun r => if r = w then rep else r) hdot segs]
  rw [show segs.map (fun r => if r = w then rep else r) = segs.map (synonymF w rep)
    from rfl]
  exact flatten_interleaveDots _

theorem isWs_eq_false_of_isWordChar {c : Char} (h : isWordChar c = true) :
    isWs c = false := by
  cases hws : isWs c
  · rfl
  · exfalso
    simp only [isWs, Bool.or_eq_true, decide_eq_true_eq] at hws
    rcases hws with ((h1 | h1) | h1) | h1 <;> subst h1 <;> simp [isWordChar] at h

theorem ne_rbrace_of_isWordChar {c : Char} (h : isWordChar c = true) :
    c ≠ rbraceC := by
  intro hc
  subst hc
  simp [isWordChar, rbraceC, Char.ofNat] at h

/-- Every character of a dotted join of wordy segments is a dot or a word
character. -/
theorem mem_joinDots {segs : List (List Char)}
    (hall : ∀ s ∈ segs, wordySeg s = true) :
    ∀ c ∈ joinDots segs, c = '.' ∨ isWordChar c = true := by
  induction segs with
  | nil => intro c hc; cases hc
  | cons s rest ih =>
    intro c hc
    have hs := hall s (by simp)
    simp only [wordySeg, Bool.and_eq_true, List.all_eq_true] at hs
    cases rest with
    | nil =>
      right
      exact hs.2 c hc
    | cons r₂ rest' =>
      rw [show joinDots (s :: r₂ :: rest') = s ++ '.' :: joinDots (r₂ :: rest')
        from rfl] at hc
      rcases List.mem_append.mp hc with hc | hc
      · right; exact hs.2 c hc
      · rcases List.mem_cons.mp hc with hc | hc
        · left; exact hc
        · exact ih (fun x hx => hall x (by simp [hx])) c hc

theorem joinDots_ne_nil {segs : List (List Char)} (hne : segs ≠ [])
    (hall : ∀ s ∈ segs, wordySeg s = true) : joinDots segs ≠ [] := by
  cases segs with
  | nil => cases hne rfl
  | cons s rest =>
    have hs := hall s (by simp)
    cases s with
    | nil => simp [wordySeg] at hs
    | cons c s' =>
      cases rest <;> simp [joinDots]

theorem trimChars_eq_self (cs : List Char) (h : ∀ a ∈ cs, isWs a = false) :
    trimChars cs = cs := by
  unfold trimChars
  have h1 : cs.dropWhile isWs = cs := by
    cases cs with
    | nil => rfl
    | cons a rest => simp [List.dropWhile_cons, h a (by simp)]
  rw [h1]
  have h2 : cs.reverse.dropWhile isWs = cs.reverse := by
    cases hrev : cs.reverse with
    | nil => rfl
    | cons a rest =>
      have ha : isWs a = false := h a (by rw [← List.mem_reverse, hrev]; simp)
      simp [List.dropWhile_cons, ha]
  rw [h2, List.reverse_reverse]

theorem phExtract_append (body : List Char) (h : rbraceC ∉ body) :
    phExtract (body ++ [rbraceC]) = some body := by
  induction body with
  | nil => rfl
  | cons c rest ih =>
    have hc : ¬(c = rbraceC) := fun hh => h (by simp [hh])
    simp only [List.cons_append, phExtract, if_neg hc, List.append_eq]
    rw [ih fun hm => h (by simp [hm])]
    rfl

theorem parsePH_placeholder (body : List Char) (hne : body ≠ [])
    (h : rbraceC ∉ body) :
    parsePH (dollarC :: lbraceC :: body ++ [rbraceC]) = some body := by
  have hred : parsePH (dollarC :: lbraceC :: body ++ [rbraceC]) =
      (if dollarC = dollarC ∧ lbraceC = lbraceC then
        match phExtract (body ++ [rbraceC]) with
        | some mid => if mid = [] then none else some mid
        | none => none
      else none) := rfl
  rw [hred, if_pos ⟨rfl, rfl⟩, phExtract_append body h]
  simp [hne]

/-- `synonymF` sends wordy segments to wordy segments provided the
replacement is wordy. -/
theorem wordySeg_synonymF {a b : List Char} (hb : wordySeg b = true) :
    ∀ s, wordySeg s = true → wordySeg (synonymF a b s) = true := by
  intro s hs
  unfold synonymF
  by_cases h : s = a
  · simp [h, hb]
  · simp [h, hs]

/-- C10: when a `${ref}` placeholder over a dotted path of identifier
segments resolves to `undefined`, the resolver retries the lookup with the
segments `result`→`results` and `link`→`url` substituted, and if still
`undefined` retries with the reverse substitutions `results`→`result`,
`url`→`link` applied to the original reference, returning the first
defined value.  (Stated for the outputs-map context, where no `item`
binding is in scope.) -/
theorem c10_synonym_fallback (fromSteps : String → JVal)
    (segs : List (List Char)) (hne : segs ≠ [])
    (hall : ∀ s ∈ segs, wordySeg s = true) :
    deepResolve
        (.str (String.mk (dollarC :: lbraceC :: joinDots segs ++ [rbraceC])))
        fromSteps none =
      (let direct := fromSteps (String.mk (joinDots segs))
       let fwd := fromSteps (String.mk (joinDots (segs.map fun s =>
         synonymF "link".data "url".data (synonymF "result".data "results".data s))))
       let rev := fromSteps (String.mk (joinDots (segs.map fun s =>
         synonymF "url".data "link".data (synonymF "results".data "result".data s))))
       if direct ≠ .undef then direct else if fwd ≠ .undef then fwd else rev) := by
  have hchars : ∀ c ∈ joinDots segs, c = '.' ∨ isWordChar c = true := mem_joinDots hall
  have hbr : rbraceC ∉ joinDots segs := by
    intro hmem
    rcases hchars _ hmem with h | h
    · exact absurd h (by decide)
    · exact ne_rbrace_of_isWordChar h rfl
  have hws : ∀ a ∈ joinDots segs, isWs a = false := by
    intro a ha
    rcases hchars a ha with h | h
    · subst h; decide
    · exact isWs_eq_false_of_isWordChar h
  have hjne : joinDots segs ≠ [] := joinDots_ne_nil hne hall
  simp only [deepResolve, parsePH_placeholder (joinDots segs) hjne hbr,
    trimChars_eq_self _ hws, Option.isSome_none, Bool.false_eq_true, and_false,
    if_false, lookupWithSynonyms]
  have hfwd1 : replaceWordRuns "result".data "results".data
      (String.mk (joinDots segs)).data =
      joinDots (segs.map (synonymF "result".data "results".data)) :=
    replaceWordRuns_joinDots _ _ (by decide) segs hne hall
  have hall1 : ∀ s ∈ segs.map (synonymF "result".data "results".data),
      wordySeg s = true := by
    intro s hs
    rcases List.mem_map.mp hs with ⟨x, hx, hxe⟩
    exact hxe ▸ wordySeg_synonymF (by decide) x (hall x hx)
  have hne1 : segs.map (synonymF "result".data "results".data) ≠ [] := by
    cases segs
    · cases hne rfl
    · simp
  have hfwd2 : replaceWordRuns "link".data "url".data
      (joinDots (segs.map (synonymF "result".data "results".data))) =
      joinDots ((segs.map (synonymF "result".data "results".data)).map
        (synonymF "link".data "url".data)) :=
    replaceWordRuns_joinDots _ _ (by decide) _ hne1 hall1
  have hrev1 : replaceWordRuns "results".data "result".data
      (String.mk (joinDots segs)).data =
      joinDots (segs.map (synonymF "results".data "result".data)) :=
    replaceWordRuns_joinDots _ _ (by decide) segs hne hall
  have hall2 : ∀ s ∈ segs.map (synonymF "results".data "result".data),
      wordySeg s = true := by
    intro s hs
    rcases List.mem_map.mp hs with ⟨x, hx, hxe⟩
    exact hxe ▸ wordySeg_synonymF (by decide) x (hall x hx)
  have hne2 : segs.map (synonymF "results".data "result".data) ≠ [] := by
    cases segs
    · cases hne rfl
    · simp
  have hrev2 : replaceWordRuns "url".data "link".data
      (joinDots (segs.map (synonymF "results".data "result".data))) =
      joinDots ((segs.map (synonymF "results".data "result".data)).map
        (synonymF "url".data "link".data)) :=
    replaceWordRuns_joinDots _ _ (by decide) _ hne2 hall2
  rw [hfwd1, hfwd2, hrev1, hrev2, List.map_map, List.map_map]
  by_cases hdirect : fromSteps (String.mk (joinDots segs)) = .undef
  · by_cases hfwd : fromSteps (String.mk (joinDots (segs.map fun s =>
        synonymF "link".data "url".data (synonymF "result".data "results".data s)))) = .undef
    · simp [hdirect, hfwd, Function.comp_def]
    · simp [hdirect, hfwd, Function.comp_def]
  · simp [hdirect]

/-- Witness for C10: the reference `${search.result.link}` is absent from
the outputs, but `search.results.url` is defined; the resolver returns the
latter's value. -/
theorem c10_synonym_fallback_witness :
    ["search".data, "result".data, "link".data] ≠ ([] : List (List Char)) ∧
    (∀ s ∈ [String.data "search", String.data "result", String.data "link"],
      wordySeg s = true) ∧
    deepResolve
      (.str (String.mk (dollarC :: lbraceC ::
        joinDots ["search".data, "result".data, "link".data] ++ [rbraceC])))
      (fun r => if r = "search.results.url" then .str "W" else .undef) none =
      .str "W" := by
  refine ⟨by decide, by decide, ?_⟩
  refine (c10_synonym_fallback
    (fun r => if r = "search.results.url" then .str "W" else .undef)
    ["search".data, "result".data, "link".data] (by decide) (by decide)).trans ?_
  decide

/-- One-step unfolding of the variant retry loop. -/
theorem bIter_eq (router : Budget.BRouter) (ctx : Budget.BCtx) (opts : Budget.BOpts)
    (planStart : Nat) (s : MT) (backoff attempt fuel : Nat) (st : Budget.BState) :
    Budget.bIter router ctx opts planStart s backoff attempt fuel st =
      (let st₀ := Budget.bPushEvent st (.stepStart s.id)
       match Budget.checkBudget opts planStart st₀.now with
       | some e => (.error e, st₀)
       | none =>
         match Budget.bTryBody router ctx opts planStart s attempt st₀ with
         | (.ok v, st') => (.ok v, st')
         | (.error e, st') =>
           match fuel with
           | 0 => (.error e, st')
           | fuel' + 1 =>
             Budget.bIter router ctx opts planStart s backoff (attempt + 1) fuel'
               (Budget.bElapse (Budget.bPushEvent st' (.stepRetry s.id (attempt + 1)))
                 (backoff * (attempt + 1)))) := by
  rw [Budget.bIter]

/-- C4 counterexample (against the budget-variant runner): the second
budget check of an attempt — performed after the cache read, before
awaiting the call — sits *inside* the `try`, so its budget-exceeded error
is caught by the retry handler.  Concretely: with `maxLatencyMs = 10`, a
cache `get` that takes 20 ms and misses, a router that succeeds, no schema,
and `retry: {max: 1}`, the first attempt fails *only* by the budget check
(elapsed 20 > 10), a `step:retry` event is emitted after that
budget-exceeded failure, and the second attempt then dies fatally at its
head check (elapsed 420 > 10, after the 400 ms backoff sleep).  This
refutes the claim that a budget-exceeded error is never retried and that no
`step:retry` event follows a budget-exceeded failure. -/
theorem c4_budget_retry_counterexample :
    Budget.bExecWithRetry
      (Budget.BRouter.mk fun _ _ _ => (.ok (.str "R"), 5))
      (Budget.BCtx.mk "t" (.str "in") fun _ => none)
      (Budget.BOpts.mk (some 10) none
        (some (Budget.BCache.mk (fun _ => (.ok .undef, 20))
          (fun _ _ _ => (.ok (), 0)))) none)
      0
      (.model (ModelStep.mk "s" "a" none
        (some (Guard.mk none (some (RetrySpec.mk 1 none)))) none none))
      (Budget.BState.mk 0 [] [] []) =
      (.error (.budgetExceeded 420 10),
       Budget.BState.mk 420 []
         [.stepStart "s", .stepRetry "s" 1, .stepStart "s"]
         [.cacheGet "step:s:\"in\"", .route "t:s:0" "a" (.str "in")]) := rfl

/-- C4 amended: only the budget check performed at the *head* of an attempt
(before the `try` block) is fatal: whenever an attempt begins with the
budget already exceeded, the loop returns the budget-exceeded error
immediately — regardless of remaining retry budget, with no `step:retry`,
no collaborator call and no cache access after the `step:start` it has just
emitted.  (The mid-attempt check is retryable, as the counterexample
shows; elapsed time being monotone, the re-attempt then fails fatally at
this head check.) -/
theorem c4_amended_budget_head_check_fatal (router : Budget.BRouter)
    (ctx : Budget.BCtx) (opts : Budget.BOpts) (planStart : Nat) (s : MT)
    (backoff attempt fuel : Nat) (st : Budget.BState) (m : Nat)
    (hm : opts.budgetMaxLatencyMs = some m)
    (hover : st.now - planStart > m) :
    Budget.bIter router ctx opts planStart s backoff attempt fuel st =
      (.error (.budgetExceeded (st.now - planStart) m),
       Budget.bPushEvent st (.stepStart s.id)) := by
  rw [bIter_eq]
  have hnow : (Budget.bPushEvent st (.stepStart s.id)).now = st.now := rfl
  simp only [hnow, Budget.checkBudget, hm, if_pos hover]

/-- Witness for the amended C4: with the budget already blown at attempt
start and 5 retries still available, the loop fails immediately with the
budget error and emits only the `step:start`. -/
theorem c4_amended_budget_head_check_fatal_witness :
    (some 10 : Option Nat) = some 10 ∧ 50 - 0 > 10 ∧
    Budget.bIter
      (Budget.BRouter.mk fun _ _ _ => (.ok .null, 0))
      (Budget.BCtx.mk "t" .null fun _ => none)
      (Budget.BOpts.mk (some 10) none none none)
      0
      (.model (ModelStep.mk "s" "a" none none none none))
      400 0 5 (Budget.BState.mk 50 [] [] []) =
      (.error (.budgetExceeded 50 10),
       Budget.bPushEvent (Budget.BState.mk 50 [] [] []) (.stepStart "s")) := by
  refine ⟨rfl, by decide, ?_⟩
  exact c4_amended_budget_head_check_fatal
    (Budget.BRouter.mk fun _ _ _ => (.ok .null, 0))
    (Budget.BCtx.mk "t" .null fun _ => none)
    (Budget.BOpts.mk (some 10) none none none)
    0
    (.model (ModelStep.mk "s" "a" none none none none))
    400 0 5 (Budget.BState.mk 50 [] [] []) 10 rfl (by decide)

/-- Witness for C5 at a concrete step and a concretely reordered input. -/
theorem c5_autoCacheKey_deterministic_witness :
    KeyEquiv (.obj [("b", .num 1), ("a", .obj [("y", .null), ("x", .str "v")])])
      (.obj [("a", .obj [("x", .str "v"), ("y", .null)]), ("b", .num 1)]) ∧
    nodupKeysB (.obj [("b", .num 1), ("a", .obj [("y", .null), ("x", .str "v")])]) = true ∧
    autoCacheKey (.model (ModelStep.mk "s1" "agentA" none none (some .auto) none))
      (.obj [("b", .num 1), ("a", .obj [("y", .null), ("x", .str "v")])]) =
    autoCacheKey (.model (ModelStep.mk "s1" "agentA" none none (some .auto) none))
      (.obj [("a", .obj [("x", .str "v"), ("y", .null)]), ("b", .num 1)]) := by
  have hinner : KeyEquiv (.obj [("y", .null), ("x", .str "v")])
      (.obj [("x", .str "v"), ("y", .null)]) := by
    refine @KeyEquiv.obj [("y", .null), ("x", .str "v")]
      [("x", .str "v"), ("y", .null)] [("x", .str "v"), ("y", .null)] ?_ ?_
    · exact List.Perm.swap _ _ _
    · exact .cons rfl (keyEquivRefl _) (.cons rfl (keyEquivRefl _) .nil)
  have houter : KeyEquiv (.obj [("b", .num 1), ("a", .obj [("y", .null), ("x", .str "v")])])
      (.obj [("a", .obj [("x", .str "v"), ("y", .null)]), ("b", .num 1)]) := by
    refine @KeyEquiv.obj
      [("b", .num 1), ("a", .obj [("y", .null), ("x", .str "v")])]
      [("a", .obj [("y", .null), ("x", .str "v")]), ("b", .num 1)]
      [("a", .obj [("x", .str "v"), ("y", .null)]), ("b", .num 1)] ?_ ?_
    · exact List.Perm.swap _ _ _
    · exact .cons rfl hinner (.cons rfl (keyEquivRefl _) .nil)
  exact ⟨houter, by decide,
    c5_autoCacheKey_deterministic _ _ _ houter (by decide)⟩

end Bolt
